import Mathlib

/-!
Shallow embedding of src/sudoku.py (aspittel/sudoku-solver).

The Python program is a stateful backtracking Sudoku solver.  We model the
shared mutable state (the puzzle grid, the list of Cell objects and the
backtracking cursor) as an explicit Game structure, and every method of the
Python classes as a function from state to state.  Machine-level effects that
can abort the program (Python IndexError from list indexing) are modelled by
the Res result type; loops whose termination is not structural receive an
explicit fuel argument chosen large enough at each call site to be
unreachable before the loop's own exit or fault.

Python list indexing accepts negative indices (wrapping from the end) and
raises IndexError outside [-len, len); pyIdx/pyGet model exactly that.
-/

namespace Sudoku

/-- Result of running a fragment of the program: normal result, an unhandled
IndexError (fault), or exhaustion of the fuel given to a loop. -/
inductive Res (α : Type) where
  | ok (a : α)
  | fault
  | noFuel
deriving Repr, DecidableEq

def Res.bind {α β : Type} : Res α → (α → Res β) → Res β
  | .ok a, f => f a
  | .fault, _ => .fault
  | .noFuel, _ => .noFuel

/-- The 9x9 puzzle: Python 2-d list of ints, row major. -/
abbrev Grid := List (List Nat)

/-- Python list index resolution: an index i is legal when -len <= i < len;
negative indices wrap by adding len.  Returns the resolved non-negative
position, or none for an IndexError. -/
def pyIdx (n : Nat) (i : Int) : Option Nat :=
  match i with
  | .ofNat k => if Nat.blt k n then some k else none
  | .negSucc m => if Nat.ble (m + 1) n then some (n - (m + 1)) else none

/-- Python list read with wrap-around semantics. -/
def pyGet {α : Type} (l : List α) (i : Int) : Option α :=
  (pyIdx l.length i).bind l.get?

/-- The entry of a row at a position, 0 past the end (every read the solver
performs is in bounds).  Equals List.getD with default 0. -/
def nthD : List Nat → Nat → Nat
  | [], _ => 0
  | x :: _, 0 => x
  | _ :: xs, n+1 => nthD xs n

/-- The row of a grid at an index, [] past the end (every read the solver
performs is in bounds).  Equals List.getD with default []. -/
def nthRow : Grid → Nat → List Nat
  | [], _ => []
  | r :: _, 0 => r
  | _ :: rs, n+1 => nthRow rs n

/-- The slice l[s : s+k] of a Python list: take k of drop s. -/
def sliceFrom : List Nat → Nat → Nat → List Nat
  | [], _, _ => []
  | x :: xs, 0, k =>
    match k with
    | 0 => []
    | k+1 => x :: sliceFrom xs 0 k
  | _ :: xs, s+1, k => sliceFrom xs s k

/-- Python: self.puzzle[r][c] = v  (a direct in-place write; rows keep their
length, and the write is within bounds in every run the solver performs). -/
def setGrid (p : Grid) (r c v : Nat) : Grid :=
  p.set r ((nthRow p r).set c v)

/-- One individual cell on the Sudoku board (class Cell).  The back
reference self.game is represented by passing the current Grid (and the
box size) to each operation explicitly. -/
structure Cell where
  solved : Bool
  number : Nat
  possibilities : List Nat
  row : Nat
  column : Nat
  current_index : Nat
deriving Repr, DecidableEq

/-- The whole solver state (class SudokuSolver). -/
structure Game where
  puzzle : Grid
  solve_puzzle : List Cell
  box_size : Nat
  backtrack_coord : Int
deriving Repr, DecidableEq

/-- SudokuSolver.get_row: return self.puzzle[row_number]. -/
def get_row (p : Grid) (row_number : Nat) : List Nat :=
  nthRow p row_number

/-- SudokuSolver.get_column: [row[column_number] for row in self.puzzle]. -/
def get_column : Grid → Nat → List Nat
  | [], _ => []
  | row :: rest, column_number => nthD row column_number :: get_column rest column_number

/-- SudokuSolver.find_box_start: coordinate // box_size * box_size. -/
def find_box_start (box_size coordinate : Nat) : Nat :=
  coordinate / box_size * box_size

/-- SudokuSolver.get_box_coordinates: (find_box_start(column), find_box_start(row)),
i.e. the pair (start_y, start_x). -/
def get_box_coordinates (box_size row_number column_number : Nat) : Nat × Nat :=
  (find_box_start box_size column_number, find_box_start box_size row_number)

/-- get_box, inner loop: the slices of rows start_x + (box_size - fuel),
..., start_x + (box_size - 1), concatenated. -/
def boxAux (p : Grid) (box_size start_x start_y : Nat) : Nat → List Nat
  | 0 => []
  | fuel+1 =>
    sliceFrom (nthRow p (start_x + (box_size - (fuel+1)))) start_y box_size ++
      boxAux p box_size start_x start_y fuel

/-- SudokuSolver.get_box: rows start_x .. start_x+box_size-1, and from each
the slice [start_y : start_y+box_size], concatenated (row-major). -/
def get_box (p : Grid) (box_size row_number column_number : Nat) : List Nat :=
  boxAux p box_size
    (get_box_coordinates box_size row_number column_number).2
    (get_box_coordinates box_size row_number column_number).1
    box_size

/-- The nonzero entries of the list are pairwise distinct; seen is the bit
set of nonzero entries already passed. -/
def check_area_aux : List Nat → Nat → Bool
  | [], _ => true
  | x :: xs, seen =>
    match Nat.beq x 0 with
    | true => check_area_aux xs seen
    | false =>
      match Nat.beq (Nat.land (Nat.shiftRight seen x) 1) 1 with
      | true => false
      | false => check_area_aux xs (Nat.lor seen (Nat.shiftLeft 1 x))

/-- Cell.check_area: the source computes len(values) == len(set(values)) over
values, the nonzero entries of the area, which holds exactly when no
nonzero entry repeats.  The bit set mirrors the Python set of the values
seen so far. -/
def check_area (area : List Nat) : Bool :=
  check_area_aux area 0

/-- Cell.is_valid: check_area on the cell's row, column and box. -/
def Cell.is_valid (c : Cell) (p : Grid) (box_size : Nat) : Bool :=
  check_area (get_row p c.row) &&
    (check_area (get_column p c.column) &&
      check_area (get_box p box_size c.row c.column))

/-- Cell.set_number: if the cell is not solved, write
possibilities[current_index] into the number attribute and into the grid at
the cell's coordinate.  Indexing an empty possibilities list is a Python
IndexError, hence the fault case. -/
def Cell.set_number (c : Cell) (p : Grid) : Res (Cell × Grid) :=
  match c.solved with
  | true => .ok (c, p)
  | false =>
    match c.possibilities.get? c.current_index with
    | some v => .ok ({c with number := v}, setGrid p c.row c.column v)
    | none => .fault

/-- Cell.handle_one_possibility: if exactly one possibility remains, set
solved = True FIRST and then call set_number.  Because set_number guards on
not self.solved, the call is a no-op: the number attribute and the grid are
left untouched.  This ordering is reproduced verbatim from the source. -/
def handle_one_possibility (c : Cell) (p : Grid) : Res (Cell × Grid) :=
  if c.possibilities.length == 1 then
    Cell.set_number { c with solved := true } p
  else .ok (c, p)

/-- Cell.find_possibilities: starting from the set {1..9}, remove every item
occurring in the cell's row, column or box.  CPython iterates a set of the
small ints 1..9 in ascending order, so list(possibilities) is the ascending
filtered list. -/
def find_possibilities (p : Grid) (box_size row column : Nat) : List Nat :=
  (List.range' 1 9).filter
    (fun d => !((get_row p row ++ get_column p column ++
      get_box p box_size row column).contains d))

/-- Cell.__init__: solved = number > 0; possibilities = {1..9} if open else [];
if open, run find_possibilities (which ends by calling
handle_one_possibility). -/
def makeCell (column_number row_number number : Nat) (box_size : Nat)
    (p : Grid) : Res (Cell × Grid) :=
  let solved : Bool := number > 0
  let c : Cell :=
    { solved := solved, number := number, possibilities := []
      row := row_number, column := column_number, current_index := 0 }
  if solved then .ok (c, p)
  else
    handle_one_possibility
      { c with possibilities := find_possibilities p box_size row_number column_number }
      p

/-- initialize_board, inner loop: construct the cells of row r for the
remaining columns (fuel counts the columns still to do; len is the row's
length, so the column index is len - fuel).  Each construction reads the
current grid, mirroring the live iteration of the Python enumerate. -/
def initColsAux (box_size r len : Nat) :
    Nat → Grid → List Cell → Res (List Cell × Grid)
  | 0, p, acc => .ok (acc, p)
  | fuel+1, p, acc =>
    let c := len - (fuel+1)
    let item := nthD (nthRow p r) c
    Res.bind (makeCell c r item box_size p)
      (fun cp => initColsAux box_size r len fuel cp.2 (acc ++ [cp.1]))

/-- initialize_board, outer loop over the rows (fuel counts the rows still
to do; nrows is the number of rows, so the row index is nrows - fuel). -/
def initRowsAux (box_size nrows : Nat) :
    Nat → Grid → List Cell → Res (List Cell × Grid)
  | 0, p, acc => .ok (acc, p)
  | fuel+1, p, acc =>
    let r := nrows - (fuel+1)
    let len := (nthRow p r).length
    Res.bind (initColsAux box_size r len len p acc)
      (fun cp => initRowsAux box_size nrows fuel cp.2 cp.1)

/-- SudokuSolver.initialize_board: append a Cell for every item of the
puzzle, in row-major order. -/
def Game.initialize_board (g : Game) : Res Game :=
  Res.bind (initRowsAux g.box_size g.puzzle.length g.puzzle.length
      g.puzzle g.solve_puzzle)
    (fun cp => .ok { g with puzzle := cp.2, solve_puzzle := cp.1 })

/-- Integer square root by enumeration: the largest k with k * k <= n.
This models Python's int(n ** .5), which is exact for the perfect-square
grid sizes the program supports.  (Chosen over the library square root
because it reduces inside the kernel.) -/
def intSqrt (n : Nat) : Nat :=
  ((List.range (n + 1)).filter (fun k => k * k ≤ n)).length - 1

/-- SudokuSolver.__init__(puzzle): empty cell list,
box_size = int(len(puzzle) ** .5), backtrack_coord = 0. -/
def mkSolver (puzzle : Grid) : Game :=
  { puzzle := puzzle, solve_puzzle := [], box_size := intSqrt puzzle.length
    backtrack_coord := 0 }

/-- Cell.increment_value, loop body: while the cell is invalid and
current_index < len(possibilities) - 1 (an int comparison in Python, so a
cell with an empty possibility list never enters the loop), increment the
index and call set_number.  The fuel given at the call site,
(len - 1 - current_index).toNat, is exact: fuel 0 coincides with the loop
guard being false. -/
def incAux (box_size : Nat) : Nat → Cell → Grid → Res (Cell × Grid)
  | 0, c, p => .ok (c, p)
  | fuel+1, c, p =>
    match c.is_valid p box_size with
    | true => .ok (c, p)
    | false =>
      match Nat.blt (c.current_index + 1) c.possibilities.length with
      | true =>
        let c' := { c with current_index := c.current_index + 1 }
        Res.bind (c'.set_number p) (fun cp => incAux box_size fuel cp.1 cp.2)
      | false => .ok (c, p)

/-- Cell.increment_value on the cell object (paired with the grid it
writes into).  The Python guard current_index < len(possibilities) - 1 is
an int comparison; over the natural numbers current_index and len it is
exactly current_index + 1 < len (both false when len = 0).  The fuel
len - (current_index + 1) is exact: it reaches 0 exactly when the guard
goes false. -/
def Cell.increment_value (c : Cell) (p : Grid) (box_size : Nat) :
    Res (Cell × Grid) :=
  incAux box_size (c.possibilities.length - (c.current_index + 1)) c p

/-- The int comparison i < n - 1, for i : Int and n : Nat, written so that it
reduces by cases on i: a non-negative i = k satisfies it when k + 1 < n, and
a negative i = -(m+1) satisfies it unless both n = 0 and m = 0. -/
def coordLtSub1 (i : Int) (n : Nat) : Bool :=
  match i with
  | .ofNat k => Nat.blt (k + 1) n
  | .negSucc m => Nat.blt 0 (n + m)

/-- SudokuSolver.move_forward, loop: while backtrack_coord < len - 1 and the
cell at backtrack_coord is solved, increment backtrack_coord.  The and is
short-circuit, so no indexing happens once the bound is reached.  The fuel
(len - 1 - coord).toNat is exact: fuel 0 coincides with the guard being
false. -/
def mfAux (cells : List Cell) (n : Nat) : Nat → Int → Res Int
  | 0, coord => .ok coord
  | fuel+1, coord =>
    match coordLtSub1 coord n with
    | false => .ok coord
    | true =>
      match (pyIdx n coord).bind cells.get? with
      | none => .fault
      | some c =>
        match c.solved with
        | true => mfAux cells n fuel (coord + 1)
        | false => .ok coord

def Game.move_forward (g : Game) : Res Game :=
  let n := g.solve_puzzle.length
  match mfAux g.solve_puzzle n (((n : Int) - 1) - g.backtrack_coord).toNat
      g.backtrack_coord with
  | .ok coord => .ok { g with backtrack_coord := coord }
  | .fault => .fault
  | .noFuel => .noFuel

/-- SudokuSolver.backtrack, loop: having already decremented once, keep
decrementing while the cell at backtrack_coord is solved.  Each iteration
indexes the list, so once the coordinate passes below -len the lookup is an
IndexError.  The fuel at the call site exceeds coord + len + 1, which the
loop cannot survive without faulting, so fuel exhaustion is unreachable. -/
def btAux (cells : List Cell) (n : Nat) : Nat → Int → Res Int
  | 0, _ => .noFuel
  | fuel+1, coord =>
    match (pyIdx n coord).bind cells.get? with
    | none => .fault
    | some c =>
      match c.solved with
      | true => btAux cells n fuel (coord - 1)
      | false => .ok coord

def Game.backtrack (g : Game) : Res Game :=
  Res.bind
    (btAux g.solve_puzzle g.solve_puzzle.length
      ((g.backtrack_coord + (g.solve_puzzle.length : Int) + 1).toNat + 1)
      (g.backtrack_coord - 1))
    (fun coord => .ok { g with backtrack_coord := coord })

/-- SudokuSolver.reset_cell on the cell at list position k: current_index = 0,
number = 0, and clear the grid at the cell's coordinate.  The caller always
passes a position obtained from a successful lookup. -/
def Game.reset_cell (g : Game) (k : Nat) : Game :=
  match g.solve_puzzle.get? k with
  | none => g
  | some c =>
    { g with puzzle := setGrid g.puzzle c.row c.column 0
             solve_puzzle := g.solve_puzzle.set k
               { c with current_index := 0, number := 0 } }

/-- SudokuSolver.decrement_cell, loop: while the current cell's
current_index equals len(possibilities) - 1 -- an int comparison, stated
over the natural numbers as current_index + 1 = len (a solved cell with an
empty list compares 0 == -1, i.e. 1 = 0: false either way) -- reset the cell,
backtrack, and refetch the cell at the new backtrack_coord; finally
increment the (new) current cell's index by one.  k is the list position of
the current cell.  The fuel at the call site exceeds what the strictly
decreasing coordinate allows before backtrack faults. -/
def decAux (box_size : Nat) : Nat → Game → Nat → Res Game
  | 0, _, _ => .noFuel
  | fuel+1, g, k =>
    match g.solve_puzzle.get? k with
    | none => .fault
    | some c =>
      match c.current_index + 1 == c.possibilities.length with
      | true =>
        Res.bind (Game.backtrack (g.reset_cell k))
          (fun g2 =>
            match pyIdx g2.solve_puzzle.length g2.backtrack_coord with
            | none => .fault
            | some k2 => decAux box_size fuel g2 k2)
      | false =>
        .ok { g with solve_puzzle :=
                g.solve_puzzle.set k { c with current_index := c.current_index + 1 } }

def Game.decrement_cell (g : Game) (k : Nat) : Res Game :=
  decAux g.box_size
    ((g.backtrack_coord + (g.solve_puzzle.length : Int) + 2).toNat + 2) g k

/-- SudokuSolver.change_cells: if the cell at position k is valid, advance
the cursor by one; otherwise run decrement_cell on it. -/
def Game.change_cells (g : Game) (k : Nat) : Res Game :=
  match g.solve_puzzle.get? k with
  | none => .fault
  | some c =>
    match c.is_valid g.puzzle g.box_size with
    | true => .ok { g with backtrack_coord := g.backtrack_coord + 1 }
    | false => g.decrement_cell k

/-- The body of one main-loop iteration acting on the current cell: the
cell's set_number followed by its increment_value (the Python cell is one
shared object mutated in place). -/
def cellOps (box_size : Nat) (c : Cell) (p : Grid) : Res (Cell × Grid) :=
  Res.bind (c.set_number p) (fun cp => cp.1.increment_value cp.2 box_size)

/-- Apply cellOps to the cell at list position k, rebuilding the list in the
same traversal; also returns the updated cell (the Python object the main
loop goes on to inspect). -/
def applyAt (box_size : Nat) : List Cell → Nat → Grid → Res (List Cell × Cell × Grid)
  | [], _, _ => .fault
  | c :: cs, 0, p =>
    match cellOps box_size c p with
    | .ok (c2, p2) => .ok (c2 :: cs, c2, p2)
    | .fault => .fault
    | .noFuel => .noFuel
  | c :: cs, k+1, p =>
    match applyAt box_size cs k p with
    | .ok (cs2, c2, p2) => .ok (c :: cs2, c2, p2)
    | .fault => .fault
    | .noFuel => .noFuel

/-- SudokuSolver.solve: one iteration of the main loop -- move_forward, set
the current cell (set_cell), let it increment_value over its own
candidates, then advance or backtrack with change_cells.  change_cells is
inlined on the updated current cell: if it is valid, advance the cursor,
else decrement_cell. -/
def Game.solve (g : Game) : Res Game :=
  Res.bind g.move_forward (fun g1 =>
    match pyIdx g1.solve_puzzle.length g1.backtrack_coord with
    | none => .fault
    | some k =>
      match applyAt g1.box_size g1.solve_puzzle k g1.puzzle with
      | .fault => .fault
      | .noFuel => .noFuel
      | .ok (cells2, c2, p2) =>
        match c2.is_valid p2 g1.box_size with
        | true =>
          .ok { g1 with puzzle := p2, solve_puzzle := cells2
                        backtrack_coord := g1.backtrack_coord + 1 }
        | false =>
          Game.decrement_cell
            { g1 with puzzle := p2, solve_puzzle := cells2 } k)

/-- The int comparison i <= n - 1, for i : Int and n : Nat: a non-negative
i = k satisfies it when k < n, and every negative i satisfies it. -/
def coordLeSub1 (i : Int) (n : Nat) : Bool :=
  match i with
  | .ofNat k => Nat.blt k n
  | .negSucc _ => true

/-- SudokuSolver.run_solve: repeat solve while
backtrack_coord <= len(solve_puzzle) - 1.  This loop can genuinely run
forever, so the fuel is a real parameter of the model. -/
def runAux : Nat → Game → Res Game
  | 0, _ => .noFuel
  | fuel+1, g =>
    match coordLeSub1 g.backtrack_coord g.solve_puzzle.length with
    | false => .ok g
    | true =>
      match g.solve with
      | .ok g2 => runAux fuel g2
      | .fault => .fault
      | .noFuel => .noFuel

def Game.run_solve (g : Game) (fuel : Nat) : Res Game :=
  runAux fuel g

/-- Module-level solve(puzzle): build the solver, initialize the board, run
the loop, return the (shared, mutated) puzzle. -/
def solve (puzzle : Grid) (fuel : Nat) : Res Grid :=
  Res.bind (mkSolver puzzle).initialize_board
    (fun g => Res.bind (g.run_solve fuel) (fun g2 => .ok g2.puzzle))

/-- Exactly n iterations of the main loop, stopping early (with the state
reached) when the loop guard backtrack_coord <= len - 1 goes false or a
fault occurs.  runAux with enough fuel agrees with steps; steps is the
handle the incremental theorems use. -/
def steps : Nat → Game → Res Game
  | 0, g => .ok g
  | n+1, g =>
    match coordLeSub1 g.backtrack_coord g.solve_puzzle.length with
    | false => .ok g
    | true =>
      match g.solve with
      | .ok g2 => steps n g2
      | .fault => .fault
      | .noFuel => .noFuel

/-- The classic example puzzle embedded at module level in the source. -/
def puzzle : Grid :=
  [[5, 3, 0, 0, 7, 0, 0, 0, 0],
   [6, 0, 0, 1, 9, 5, 0, 0, 0],
   [0, 9, 8, 0, 0, 0, 0, 6, 0],
   [8, 0, 0, 0, 6, 0, 0, 0, 3],
   [4, 0, 0, 8, 0, 3, 0, 0, 1],
   [7, 0, 0, 0, 2, 0, 0, 0, 6],
   [0, 6, 0, 0, 0, 0, 2, 8, 0],
   [0, 0, 0, 4, 1, 9, 0, 0, 5],
   [0, 0, 0, 0, 8, 0, 0, 7, 9]]

/-- The completed solution embedded at module level in the source. -/
def solution : Grid :=
  [[5, 3, 4, 6, 7, 8, 9, 1, 2],
   [6, 7, 2, 1, 9, 5, 3, 4, 8],
   [1, 9, 8, 3, 4, 2, 5, 6, 7],
   [8, 5, 9, 7, 6, 1, 4, 2, 3],
   [4, 2, 6, 8, 5, 3, 7, 9, 1],
   [7, 1, 3, 9, 2, 4, 8, 5, 6],
   [9, 6, 1, 5, 3, 7, 2, 8, 4],
   [2, 8, 7, 4, 1, 9, 6, 3, 5],
   [3, 4, 5, 2, 8, 6, 1, 7, 9]]

/-- Witness for C1 at a concrete puzzle whose top-left cell has the single
candidate 9 (its row already holds 1..8). -/
def onePossPuzzle : Grid :=
  [[0, 1, 2, 3, 4, 5, 6, 7, 8],
   [0, 0, 0, 0, 0, 0, 0, 0, 0],
   [0, 0, 0, 0, 0, 0, 0, 0, 0],
   [0, 0, 0, 0, 0, 0, 0, 0, 0],
   [0, 0, 0, 0, 0, 0, 0, 0, 0],
   [0, 0, 0, 0, 0, 0, 0, 0, 0],
   [0, 0, 0, 0, 0, 0, 0, 0, 0],
   [0, 0, 0, 0, 0, 0, 0, 0, 0],
   [0, 0, 0, 0, 0, 0, 0, 0, 0]]

/-- A one-cell game whose single cell is solved. -/
def tinyGame : Game := Game.mk [[5]] [Cell.mk true 5 [] 0 0 0] 1 0

/-- The unsolvable example from the spec: two 5s in the first row. -/
def unsolvPuzzle : Grid :=
  [[5, 5, 0, 0, 0, 0, 0, 0, 0],
   [0, 0, 0, 0, 0, 0, 0, 0, 0],
   [0, 0, 0, 0, 0, 0, 0, 0, 0],
   [0, 0, 0, 0, 0, 0, 0, 0, 0],
   [0, 0, 0, 0, 0, 0, 0, 0, 0],
   [0, 0, 0, 0, 0, 0, 0, 0, 0],
   [0, 0, 0, 0, 0, 0, 0, 0, 0],
   [0, 0, 0, 0, 0, 0, 0, 0, 0],
   [0, 0, 0, 0, 0, 0, 0, 0, 0]]

/-- What Cell.__init__ produces for the entry at (row, col) of grid p. -/
def mkCellPure (p : Grid) (bs row col : Nat) : Cell :=
  if 0 < nthD (nthRow p row) col then
    Cell.mk true (nthD (nthRow p row) col) [] row col 0
  else
    Cell.mk ((find_possibilities p bs row col).length == 1) 0
      (find_possibilities p bs row col) row col 0

/-- The full cell list initialize_board builds, in row-major order. -/
def initCells (p : Grid) (bs : Nat) : List Cell :=
  (List.range' 0 p.length).flatMap
    (fun r => (List.range' 0 (nthRow p r).length).map (mkCellPure p bs r))

def protCell (P : Nat → Nat → Prop) (val : Nat → Nat → Nat) (c : Cell) : Prop :=
  P c.row c.column →
    c.solved = true ∧ (c.possibilities = [] ∨ val c.row c.column = 0)

def protGrid (P : Nat → Nat → Prop) (val : Nat → Nat → Nat) (p : Grid) : Prop :=
  ∀ r c, P r c → nthD (nthRow p r) c = val r c

/-- Two lists that agree except that the second has 0 where the first has
some entry (or are equal). -/
def ZeroDiff (l l' : List Nat) : Prop :=
  l' = l ∨ ∃ a x b, l = a ++ x :: b ∧ l' = a ++ 0 :: b

/-- Validity of the assignment at a coordinate: check_area of its row,
column and box.  Cell.is_valid is exactly this at the cell's own
coordinates. -/
def validAt (p : Grid) (bs r c : Nat) : Bool :=
  check_area (get_row p r) &&
    (check_area (get_column p c) && check_area (get_box p bs r c))

/-- The C6 invariant: every cell strictly before the cursor is solved or
holds a currently-valid assignment. -/
def ValidPrefix (g : Game) : Prop :=
  ∀ (k : Nat) (c : Cell), (k : Int) < g.backtrack_coord →
    g.solve_puzzle.get? k = some c →
    c.solved = true ∨ c.is_valid g.puzzle g.box_size = true

@[simp] theorem Res.bind_ok {α β : Type} (a : α) (f : α → Res β) :
    Res.bind (.ok a) f = f a := rfl

@[simp] theorem Res.bind_fault {α β : Type} (f : α → Res β) :
    Res.bind (.fault : Res α) f = .fault := rfl

@[simp] theorem Res.bind_noFuel {α β : Type} (f : α → Res β) :
    Res.bind (.noFuel : Res α) f = .noFuel := rfl

/-! ### Claim C10: set_number is a no-op on a solved cell -/

/-- Claim C10: for every Cell whose solved flag is true, set_number leaves
both the cell (in particular its number attribute) and the grid unchanged,
regardless of the candidate list or candidate cursor. -/
theorem C10_set_number_noop_on_solved (c : Cell) (p : Grid)
    (h : c.solved = true) : c.set_number p = .ok (c, p) := by
  unfold Cell.set_number
  rw [h]

/-- Witness for C10 at a concrete solved cell with a nonempty candidate
list and nonzero cursor: nothing changes. -/
theorem C10_set_number_noop_on_solved_witness :
    (Cell.mk true 5 [1, 2] 0 0 1).solved = true ∧
      (Cell.mk true 5 [1, 2] 0 0 1).set_number [[5, 3], [0, 0]] =
        .ok (Cell.mk true 5 [1, 2] 0 0 1, [[5, 3], [0, 0]]) :=
  ⟨rfl, C10_set_number_noop_on_solved _ _ rfl⟩

/-! ### Claim C1: the one-possibility commit never happens (code bug)

handle_one_possibility sets solved := true BEFORE calling set_number, and
set_number does nothing on a solved cell.  So a freshly constructed open
cell whose candidate computation leaves exactly one candidate is marked
solved, but its number stays 0 and the grid is NOT written -- contradicting
the function's own docstring ("set the cell to that value and mark it as
solved"). -/

/-- Claim C1 (refuting theorem): constructing a non-fixed cell (initial
digit 0) whose candidate list is a single candidate yields solved = true
but number = 0, and leaves the grid untouched -- the commit the claim
describes never executes. -/
theorem C1_one_possibility_marks_solved_but_never_commits
    (column row bs : Nat) (p : Grid)
    (h : (find_possibilities p bs row column).length = 1) :
    makeCell column row 0 bs p =
      .ok (Cell.mk true 0 (find_possibilities p bs row column) row column 0, p) := by
  unfold makeCell handle_one_possibility Cell.set_number
  simp [h]

theorem C1_one_possibility_marks_solved_but_never_commits_witness :
    (find_possibilities onePossPuzzle 3 0 0).length = 1 ∧
      makeCell 0 0 0 3 onePossPuzzle =
        .ok (Cell.mk true 0 (find_possibilities onePossPuzzle 3 0 0) 0 0 0,
          onePossPuzzle) :=
  ⟨by decide, C1_one_possibility_marks_solved_but_never_commits 0 0 3 _ (by decide)⟩

/-! ### Claim C5: the candidate set -/

/-- Claim C5: for a (non-fixed) cell's candidate computation, the list
find_possibilities produces equals, as a set, {1..9} minus the nonzero
digits appearing in the cell's row, column and box in the current grid
state (the zero markers are never candidates anyway); being a pure
function of the grid state, the computation is deterministic. -/
theorem C5_find_possibilities_eq_Icc_sdiff
    (p : Grid) (bs r c : Nat) :
    (find_possibilities p bs r c).toFinset =
      Finset.Icc 1 9 \
        ((get_row p r ++ get_column p c ++ get_box p bs r c).filter
            (fun x => x ≠ 0)).toFinset := by
  ext d
  simp only [find_possibilities, List.toFinset_filter, List.mem_toFinset,
    Finset.mem_filter, Finset.mem_sdiff, Finset.mem_Icc, List.mem_filter,
    List.mem_range'_1]
  constructor
  · rintro ⟨⟨h1, h2⟩, h3⟩
    refine ⟨⟨h1, by omega⟩, ?_⟩
    rintro ⟨hmem, -⟩
    rw [Bool.not_eq_true', ← Bool.not_eq_true] at h3
    exact h3 (List.elem_eq_true_of_mem hmem)
  · rintro ⟨⟨h1, h2⟩, h3⟩
    refine ⟨⟨h1, by omega⟩, ?_⟩
    rw [Bool.not_eq_true', ← Bool.not_eq_true]
    intro hc
    exact h3 ⟨List.mem_of_elem_eq_true hc, decide_eq_true (by omega)⟩

/-! ### Claim C9: the box accessor -/

theorem nthD_nil (n : Nat) : nthD [] n = 0 := by simp only [nthD]

theorem nthD_cons_zero (x : Nat) (xs : List Nat) : nthD (x :: xs) 0 = x := by
  simp only [nthD]

theorem nthD_cons_succ (x : Nat) (xs : List Nat) (n : Nat) :
    nthD (x :: xs) (n + 1) = nthD xs n := by
  simp only [nthD]

theorem nthRow_nil (n : Nat) : nthRow [] n = [] := by simp only [nthRow]

theorem nthRow_cons_zero (x : List Nat) (xs : Grid) : nthRow (x :: xs) 0 = x := by
  simp only [nthRow]

theorem nthRow_cons_succ (x : List Nat) (xs : Grid) (n : Nat) :
    nthRow (x :: xs) (n + 1) = nthRow xs n := by
  simp only [nthRow]

/-- A row fetched from a grid at a valid index is one of its rows. -/
theorem nthRow_mem (p : Grid) (r : Nat) (h : r < p.length) :
    nthRow p r ∈ p := by
  induction p generalizing r with
  | nil => simp at h
  | cons x xs ih =>
    cases r with
    | zero => rw [nthRow_cons_zero]; exact List.mem_cons_self _ _
    | succ m =>
      rw [nthRow_cons_succ]
      exact List.mem_cons_of_mem _ (ih m (by simpa using h))

theorem sliceFrom_cons_succ (x : Nat) (xs : List Nat) (s k : Nat) :
    sliceFrom (x :: xs) (s + 1) k = sliceFrom xs s k := by
  simp only [sliceFrom]

theorem sliceFrom_zero (l : List Nat) (s : Nat) : sliceFrom l s 0 = [] := by
  induction l generalizing s with
  | nil => simp only [sliceFrom]
  | cons x xs ih =>
    cases s with
    | zero => simp only [sliceFrom]
    | succ m => rw [sliceFrom_cons_succ]; exact ih m

/-- A slice of width 3 that fits inside the list is the triple of entries
at its start. -/
theorem sliceFrom_three (l : List Nat) (s : Nat) (h : s + 3 ≤ l.length) :
    sliceFrom l s 3 = [nthD l s, nthD l (s + 1), nthD l (s + 2)] := by
  induction l generalizing s with
  | nil => simp at h
  | cons x xs ih =>
    cases s with
    | zero =>
      simp only [List.length_cons] at h
      match xs, h with
      | b :: c :: rest, _ =>
        have e : sliceFrom (x :: b :: c :: rest) 0 3 =
            x :: b :: c :: sliceFrom rest 0 0 := by
          simp only [sliceFrom]
        rw [e, sliceFrom_zero]
        simp [nthD_cons_zero, nthD_cons_succ]
    | succ m =>
      rw [sliceFrom_cons_succ]
      exact ih m (by simp only [List.length_cons] at h; omega)

theorem boxAux_succ (p : Grid) (bs sx sy fuel : Nat) :
    boxAux p bs sx sy (fuel + 1) =
      sliceFrom (nthRow p (sx + (bs - (fuel + 1)))) sy bs ++
        boxAux p bs sx sy fuel := by
  simp only [boxAux]

theorem boxAux_zero (p : Grid) (bs sx sy : Nat) :
    boxAux p bs sx sy 0 = [] := by
  simp only [boxAux]

/-- Claim C9: on a 9x9 grid, the box accessor for a coordinate (i, j) in
0..8 returns the nine entries of the 3x3 sub-block with top-left corner
(i / 3 * 3, j / 3 * 3), flattened in row-major order; the box size is
sqrt(9) = 3 as the solver constructor computes it, and get_box_coordinates
yields exactly that corner (as the pair (start_y, start_x)).  get_box is a
pure function of the grid, so no mutation is involved. -/
theorem C9_get_box_block (p : Grid) (i j : Nat) (hp : p.length = 9)
    (hrows : ∀ row ∈ p, row.length = 9) (hi : i < 9) (hj : j < 9) :
    (mkSolver p).box_size = 3 ∧
      get_box_coordinates 3 i j = (j / 3 * 3, i / 3 * 3) ∧
      get_box p 3 i j =
        [nthD (nthRow p (i / 3 * 3)) (j / 3 * 3),
         nthD (nthRow p (i / 3 * 3)) (j / 3 * 3 + 1),
         nthD (nthRow p (i / 3 * 3)) (j / 3 * 3 + 2),
         nthD (nthRow p (i / 3 * 3 + 1)) (j / 3 * 3),
         nthD (nthRow p (i / 3 * 3 + 1)) (j / 3 * 3 + 1),
         nthD (nthRow p (i / 3 * 3 + 1)) (j / 3 * 3 + 2),
         nthD (nthRow p (i / 3 * 3 + 2)) (j / 3 * 3),
         nthD (nthRow p (i / 3 * 3 + 2)) (j / 3 * 3 + 1),
         nthD (nthRow p (i / 3 * 3 + 2)) (j / 3 * 3 + 2)] := by
  have hrowlen : ∀ r, r < 9 → (nthRow p r).length = 9 := by
    intro r hr
    exact hrows _ (nthRow_mem p r (by omega))
  have hsx : i / 3 * 3 ≤ 6 := by omega
  have hsy : j / 3 * 3 ≤ 6 := by omega
  refine ⟨by simp only [mkSolver]; rw [hp]; decide, rfl, ?_⟩
  have e : get_box p 3 i j =
      sliceFrom (nthRow p (i / 3 * 3 + 0)) (j / 3 * 3) 3 ++
        (sliceFrom (nthRow p (i / 3 * 3 + 1)) (j / 3 * 3) 3 ++
          (sliceFrom (nthRow p (i / 3 * 3 + 2)) (j / 3 * 3) 3 ++ [])) := by
    unfold get_box get_box_coordinates find_box_start
    simp only [boxAux_succ, boxAux_zero]
  rw [e]
  rw [sliceFrom_three _ _ (by rw [hrowlen _ (by omega)]; omega),
    sliceFrom_three _ _ (by rw [hrowlen _ (by omega)]; omega),
    sliceFrom_three _ _ (by rw [hrowlen _ (by omega)]; omega)]
  simp

/-- Witness for C9 at the concrete solved grid from the source, at
coordinate (4, 7): its box has top-left corner (3, 6). -/
theorem C9_get_box_block_witness :
    (mkSolver solution).box_size = 3 ∧
      get_box_coordinates 3 4 7 = (7 / 3 * 3, 4 / 3 * 3) ∧
      get_box solution 3 4 7 =
        [nthD (nthRow solution (4 / 3 * 3)) (7 / 3 * 3),
         nthD (nthRow solution (4 / 3 * 3)) (7 / 3 * 3 + 1),
         nthD (nthRow solution (4 / 3 * 3)) (7 / 3 * 3 + 2),
         nthD (nthRow solution (4 / 3 * 3 + 1)) (7 / 3 * 3),
         nthD (nthRow solution (4 / 3 * 3 + 1)) (7 / 3 * 3 + 1),
         nthD (nthRow solution (4 / 3 * 3 + 1)) (7 / 3 * 3 + 2),
         nthD (nthRow solution (4 / 3 * 3 + 2)) (7 / 3 * 3),
         nthD (nthRow solution (4 / 3 * 3 + 2)) (7 / 3 * 3 + 1),
         nthD (nthRow solution (4 / 3 * 3 + 2)) (7 / 3 * 3 + 2)] :=
  C9_get_box_block solution 4 7 rfl (by decide) (by decide) (by decide)

/-! ### Claim C7: increment_value -/

theorem incAux_zero (bs : Nat) (c : Cell) (p : Grid) :
    incAux bs 0 c p = .ok (c, p) := by
  simp only [incAux]

theorem incAux_valid (bs fuel : Nat) (c : Cell) (p : Grid)
    (h : c.is_valid p bs = true) :
    incAux bs (fuel + 1) c p = .ok (c, p) := by
  simp only [incAux, h]

theorem incAux_invalid_last (bs fuel : Nat) (c : Cell) (p : Grid)
    (h1 : c.is_valid p bs = false)
    (h2 : Nat.blt (c.current_index + 1) c.possibilities.length = false) :
    incAux bs (fuel + 1) c p = .ok (c, p) := by
  simp only [incAux, h1, h2]

theorem incAux_invalid_step (bs fuel : Nat) (c : Cell) (p : Grid)
    (h1 : c.is_valid p bs = false)
    (h2 : Nat.blt (c.current_index + 1) c.possibilities.length = true) :
    incAux bs (fuel + 1) c p =
      Res.bind (Cell.set_number { c with current_index := c.current_index + 1 } p)
        (fun cp => incAux bs fuel cp.1 cp.2) := by
  simp only [incAux, h1, h2]

theorem set_number_unsolved (c : Cell) (p : Grid) (v : Nat)
    (hs : c.solved = false) (hv : c.possibilities.get? c.current_index = some v) :
    c.set_number p = .ok ({ c with number := v }, setGrid p c.row c.column v) := by
  unfold Cell.set_number
  rw [hs, hv]

/-- The invariant the increment_value loop maintains and its exit
condition in one statement, by induction on the exact fuel. -/
theorem incAux_spec (bs : Nat) :
    ∀ (fuel : Nat) (c : Cell) (p : Grid), c.solved = false →
    c.current_index < c.possibilities.length →
    fuel = c.possibilities.length - (c.current_index + 1) →
    ∃ c2 p2, incAux bs fuel c p = .ok (c2, p2) ∧
      c2.possibilities = c.possibilities ∧ c2.solved = false ∧
      c2.row = c.row ∧ c2.column = c.column ∧
      c.current_index ≤ c2.current_index ∧
      c2.current_index < c.possibilities.length ∧
      (c2.is_valid p2 bs = true ∨ c2.current_index + 1 = c.possibilities.length) := by
  intro fuel
  induction fuel with
  | zero =>
    intro c p hs hlt hfuel
    refine ⟨c, p, incAux_zero bs c p, rfl, hs, rfl, rfl, le_refl _, hlt, Or.inr ?_⟩
    omega
  | succ n ih =>
    intro c p hs hlt hfuel
    cases hvalid : c.is_valid p bs with
    | true =>
      exact ⟨c, p, incAux_valid bs n c p hvalid, rfl, hs, rfl, rfl, le_refl _,
        hlt, Or.inl hvalid⟩
    | false =>
      rcases hlast : Nat.blt (c.current_index + 1) c.possibilities.length with _ | _
      · have hnlt : ¬ (c.current_index + 1 < c.possibilities.length) := fun hcon => by
          simp [Nat.blt_eq.mpr hcon] at hlast
        exact ⟨c, p, incAux_invalid_last bs n c p hvalid hlast, rfl, hs, rfl, rfl,
          le_refl _, hlt, Or.inr (by omega)⟩
      · have hn : c.current_index + 1 < c.possibilities.length := Nat.blt_eq.mp hlast
        have hv : c.possibilities.get? (c.current_index + 1) =
            some (c.possibilities.get ⟨c.current_index + 1, hn⟩) :=
          List.get?_eq_get hn
        rw [incAux_invalid_step bs n c p hvalid hlast,
          set_number_unsolved { c with current_index := c.current_index + 1 } p
            (c.possibilities.get ⟨c.current_index + 1, hn⟩) hs hv,
          Res.bind_ok]
        obtain ⟨c2, p2, heq, hposs, hs2, hr2, hc2, hle, hlt2, hexit⟩ :=
          ih { c with number := c.possibilities.get ⟨c.current_index + 1, hn⟩,
                      current_index := c.current_index + 1 }
            (setGrid p c.row c.column _) hs hn (by simp at hfuel ⊢; omega)
        refine ⟨c2, p2, heq, hposs, hs2, hr2, hc2, ?_, hlt2, hexit⟩
        simp at hle
        omega

/-- Claim C7: for a non-fixed cell with a non-empty candidate list (cursor
in range), increment_value (a) leaves the cell and grid untouched when the
cell is already valid on entry, and (b) otherwise advances the cursor only
forward, never past the last candidate index, terminating in a state that
is either valid or has the cursor at the last candidate index -- so
validity on exit is NOT guaranteed, only candidate exhaustion. -/
theorem C7_increment_value_spec (c : Cell) (p : Grid) (bs : Nat)
    (hs : c.solved = false) (hidx : c.current_index < c.possibilities.length) :
    (c.is_valid p bs = true → c.increment_value p bs = .ok (c, p)) ∧
      ∃ c2 p2, c.increment_value p bs = .ok (c2, p2) ∧
        c2.possibilities = c.possibilities ∧ c2.solved = false ∧
        c2.row = c.row ∧ c2.column = c.column ∧
        c.current_index ≤ c2.current_index ∧
        c2.current_index < c.possibilities.length ∧
        (c2.is_valid p2 bs = true ∨ c2.current_index + 1 = c.possibilities.length) := by
  constructor
  · intro hvalid
    unfold Cell.increment_value
    cases hf : c.possibilities.length - (c.current_index + 1) with
    | zero => exact incAux_zero bs c p
    | succ m => exact incAux_valid bs m c p hvalid
  · exact incAux_spec bs _ c p hs hidx rfl

/-- Witness for C7: a concrete open cell whose value 5 duplicates a 5 in
its row, with one candidate left after the cursor. -/
theorem C7_increment_value_spec_witness :
    (Cell.mk false 5 [5, 9] 0 0 0).solved = false ∧
      (Cell.mk false 5 [5, 9] 0 0 0).current_index <
        (Cell.mk false 5 [5, 9] 0 0 0).possibilities.length ∧
      ((Cell.mk false 5 [5, 9] 0 0 0).is_valid [[5, 5]] 1 = true →
          (Cell.mk false 5 [5, 9] 0 0 0).increment_value [[5, 5]] 1 =
            .ok (Cell.mk false 5 [5, 9] 0 0 0, [[5, 5]])) ∧
      ∃ c2 p2, (Cell.mk false 5 [5, 9] 0 0 0).increment_value [[5, 5]] 1 = .ok (c2, p2) ∧
        c2.possibilities = (Cell.mk false 5 [5, 9] 0 0 0).possibilities ∧
        c2.solved = false ∧
        c2.row = (Cell.mk false 5 [5, 9] 0 0 0).row ∧
        c2.column = (Cell.mk false 5 [5, 9] 0 0 0).column ∧
        (Cell.mk false 5 [5, 9] 0 0 0).current_index ≤ c2.current_index ∧
        c2.current_index < (Cell.mk false 5 [5, 9] 0 0 0).possibilities.length ∧
        (c2.is_valid p2 1 = true ∨
          c2.current_index + 1 = (Cell.mk false 5 [5, 9] 0 0 0).possibilities.length) :=
  ⟨rfl, by decide,
    (C7_increment_value_spec (Cell.mk false 5 [5, 9] 0 0 0) [[5, 5]] 1 rfl (by decide)).1,
    (C7_increment_value_spec (Cell.mk false 5 [5, 9] 0 0 0) [[5, 5]] 1 rfl (by decide)).2⟩

/-! ### Claim C4: backtrack underflow -/

theorem pyIdx_some_lower (n : Nat) (i : Int) (k : Nat)
    (h : pyIdx n i = some k) : -(n : Int) ≤ i := by
  cases i with
  | ofNat m => simp [Int.ofNat_eq_coe]; omega
  | negSucc m =>
    simp only [pyIdx] at h
    rcases hble : Nat.ble (m + 1) n with _ | _
    · rw [hble] at h; simp at h
    · have := Nat.le_of_ble_eq_true hble
      simp [Int.negSucc_eq]
      omega

theorem btAux_zero (cells : List Cell) (n : Nat) (coord : Int) :
    btAux cells n 0 coord = .noFuel := by
  simp only [btAux]

theorem btAux_succ (cells : List Cell) (n fuel : Nat) (coord : Int) :
    btAux cells n (fuel + 1) coord =
      match (pyIdx n coord).bind cells.get? with
      | none => .fault
      | some c =>
        match c.solved with
        | true => btAux cells n fuel (coord - 1)
        | false => .ok coord := by
  simp only [btAux]

theorem btAux_succ_none (cells : List Cell) (n fuel : Nat) (coord : Int)
    (h : (pyIdx n coord).bind cells.get? = none) :
    btAux cells n (fuel + 1) coord = .fault := by
  rw [btAux_succ, h]

theorem btAux_succ_solved (cells : List Cell) (n fuel : Nat) (coord : Int)
    (c : Cell) (h : (pyIdx n coord).bind cells.get? = some c)
    (hc : c.solved = true) :
    btAux cells n (fuel + 1) coord = btAux cells n fuel (coord - 1) := by
  rw [btAux_succ, h]
  dsimp only
  rw [hc]

theorem btAux_succ_open (cells : List Cell) (n fuel : Nat) (coord : Int)
    (c : Cell) (h : (pyIdx n coord).bind cells.get? = some c)
    (hc : c.solved = false) :
    btAux cells n (fuel + 1) coord = .ok coord := by
  rw [btAux_succ, h]
  dsimp only
  rw [hc]

theorem pyIdx_some_nonneg (n : Nat) (i : Int) (k : Nat)
    (h : pyIdx n i = some k) (h0 : 0 ≤ i) : (k : Int) = i ∧ k < n := by
  cases i with
  | ofNat m =>
    simp only [pyIdx] at h
    rcases hblt : Nat.blt m n with _ | _
    · rw [hblt] at h; simp at h
    · rw [hblt] at h
      simp at h
      subst h
      exact ⟨rfl, Nat.blt_eq.mp hblt⟩
  | negSucc m => exact absurd (Int.negSucc_lt_zero m) (by omega)

/-- If every cell at a non-negative position up to the cursor is solved,
the backtrack loop either runs off the low end of the list (an IndexError)
or stops at a wrapped-around negative position: it never stops at a
non-negative one. -/
theorem btAux_underflow (cells : List Cell) (n : Nat) :
    ∀ (fuel : Nat) (coord : Int), (coord + n + 1).toNat < fuel →
    (∀ k : Nat, (k : Int) ≤ coord → ∀ c, cells.get? k = some c → c.solved = true) →
    btAux cells n fuel coord = .fault ∨
      ∃ coord', coord' < 0 ∧ btAux cells n fuel coord = .ok coord' := by
  intro fuel
  induction fuel with
  | zero => intro coord hm _; omega
  | succ f ih =>
    intro coord hm hall
    cases hpy : pyIdx n coord with
    | none =>
      exact Or.inl (btAux_succ_none cells n f coord (by rw [hpy]; rfl))
    | some k =>
      cases hget : cells.get? k with
      | none =>
        refine Or.inl (btAux_succ_none cells n f coord ?_)
        rw [hpy, Option.some_bind, hget]
      | some c =>
        have hbind : (pyIdx n coord).bind cells.get? = some c := by
          rw [hpy, Option.some_bind, hget]
        have hlow : -(n : Int) ≤ coord := pyIdx_some_lower n coord k hpy
        by_cases h0 : 0 ≤ coord
        · have hk : (k : Int) = coord := (pyIdx_some_nonneg n coord k hpy h0).1
          have hc : c.solved = true := hall k (by omega) c hget
          rw [btAux_succ_solved cells n f coord c hbind hc]
          exact ih (coord - 1) (by omega)
            (fun k2 hk2 c2 hc2 => hall k2 (by omega) c2 hc2)
        · cases hcs : c.solved with
          | false =>
            exact Or.inr ⟨coord, by omega,
              btAux_succ_open cells n f coord c hbind hcs⟩
          | true =>
            rw [btAux_succ_solved cells n f coord c hbind hcs]
            exact ih (coord - 1) (by omega)
              (fun k2 hk2 c2 hc2 => absurd hk2 (by omega))

/-- If every cell in the list is solved, the backtrack loop always runs off
the low end of the list: IndexError. -/
theorem btAux_all_solved (cells : List Cell) (n : Nat) :
    ∀ (fuel : Nat) (coord : Int), (coord + n + 1).toNat < fuel →
    (∀ c ∈ cells, c.solved = true) →
    btAux cells n fuel coord = .fault := by
  intro fuel
  induction fuel with
  | zero => intro coord hm _; omega
  | succ f ih =>
    intro coord hm hall
    cases hpy : pyIdx n coord with
    | none => exact btAux_succ_none cells n f coord (by rw [hpy]; rfl)
    | some k =>
      cases hget : cells.get? k with
      | none =>
        refine btAux_succ_none cells n f coord ?_
        rw [hpy, Option.some_bind, hget]
      | some c =>
        have hbind : (pyIdx n coord).bind cells.get? = some c := by
          rw [hpy, Option.some_bind, hget]
        have hlow : -(n : Int) ≤ coord := pyIdx_some_lower n coord k hpy
        rw [btAux_succ_solved cells n f coord c hbind (hall c (List.get?_mem hget))]
        exact ih (coord - 1) (by omega) hall

/-- backtrack on a game with no open cell before the cursor: fault, or a
negative cursor. -/
theorem backtrack_no_earlier_open (g : Game)
    (hall : ∀ k : Nat, (k : Int) < g.backtrack_coord →
      ∀ c, g.solve_puzzle.get? k = some c → c.solved = true) :
    g.backtrack = .fault ∨
      ∃ g', g.backtrack = .ok g' ∧ g'.backtrack_coord < 0 := by
  unfold Game.backtrack
  rcases btAux_underflow g.solve_puzzle g.solve_puzzle.length
      ((g.backtrack_coord + (g.solve_puzzle.length : Int) + 1).toNat + 1)
      (g.backtrack_coord - 1) (by omega)
      (fun k hk c hc => hall k (by omega) c hc) with h | ⟨coord', hneg, h⟩
  · rw [h]; exact Or.inl rfl
  · rw [h]; exact Or.inr ⟨_, rfl, hneg⟩

/-- backtrack on a game whose cells are all solved: unhandled IndexError. -/
theorem backtrack_all_solved (g : Game)
    (hall : ∀ c ∈ g.solve_puzzle, c.solved = true) :
    g.backtrack = .fault := by
  unfold Game.backtrack
  rw [btAux_all_solved g.solve_puzzle g.solve_puzzle.length _ _ (by omega) hall]
  rfl

/-- Claim C4 (amended): with no open cell before the cursor, backtrack
either raises an unhandled IndexError or drives the cursor past the first
cell to a negative position (where Python indexing wraps to the tail of the
list and the search continues); it never stops at a non-negative position,
and no unsolvable result is ever reported.  When every cell of the list is
solved the loop always runs below index -len: an unhandled IndexError. -/
theorem C4_backtrack_underflow_behaviour :
    (∀ g : Game,
      (∀ k : Nat, (k : Int) < g.backtrack_coord →
        ∀ c, g.solve_puzzle.get? k = some c → c.solved = true) →
      g.backtrack = .fault ∨
        ∃ g', g.backtrack = .ok g' ∧ g'.backtrack_coord < 0) ∧
    (∀ g : Game, (∀ c ∈ g.solve_puzzle, c.solved = true) →
      g.backtrack = .fault) :=
  ⟨backtrack_no_earlier_open, backtrack_all_solved⟩

/-- Witness for C4 at the one-cell all-solved game: backtrack faults. -/
theorem C4_backtrack_underflow_behaviour_witness :
    (tinyGame.backtrack = .fault ∨
      ∃ g', tinyGame.backtrack = .ok g' ∧ g'.backtrack_coord < 0) ∧
    tinyGame.backtrack = .fault :=
  ⟨C4_backtrack_underflow_behaviour.1 tinyGame
      (fun k hk c hc => absurd (show (k : Int) < 0 from hk) (by omega)),
    C4_backtrack_underflow_behaviour.2 tinyGame (by decide)⟩

set_option maxRecDepth 40000 in
/-- Counterexample to C4 as stated: on the duplicate-5s grid the very first
iteration exhausts the first open cell and backtracks past the first cell
to cursor -1 -- and NO index fault results: Python indexing wraps to the
tail of the cell list and the loop keeps running, still fault-free and
unterminated 300 iterations later. -/
theorem C4_backtrack_underflow_behaviour_counterexample :
    ∃ g0 g1, (mkSolver unsolvPuzzle).initialize_board = .ok g0 ∧
      steps 1 g0 = .ok g1 ∧ g1.backtrack_coord = -1 ∧
      runAux 300 g1 = .noFuel :=
  ⟨_, _, rfl, rfl, rfl, rfl⟩

/-! ### Characterizing board initialization

Because the one-possibility commit is a no-op (claim C1), Cell construction
never writes the grid, so initialization is a pure function of the input
grid; initCells lists the constructed cells in row-major order. -/

theorem makeCell_eq (p : Grid) (bs row col : Nat) :
    makeCell col row (nthD (nthRow p row) col) bs p =
      .ok (mkCellPure p bs row col, p) := by
  unfold makeCell mkCellPure
  by_cases h : 0 < nthD (nthRow p row) col
  · simp [h]
  · have h0 : nthD (nthRow p row) col = 0 := by omega
    rw [h0]
    simp only [gt_iff_lt, Nat.lt_irrefl, decide_False, Bool.false_eq_true, if_false,
      if_neg (by omega : ¬ (0:Nat) < 0)]
    unfold handle_one_possibility Cell.set_number
    rcases h1 : (find_possibilities p bs row col).length == 1 with _ | _ <;>
      simp [h1]

/-- The column loop of initialize_board appends the cells for the columns
len - fuel .. len - 1 of row r, and leaves the grid unchanged. -/
theorem initColsAux_eq (bs r len : Nat) :
    ∀ (fuel : Nat) (p : Grid) (acc : List Cell), fuel ≤ len →
      initColsAux bs r len fuel p acc =
        .ok (acc ++ (List.range' (len - fuel) fuel).map (mkCellPure p bs r), p) := by
  intro fuel
  induction fuel with
  | zero => intro p acc _; simp [initColsAux]
  | succ f ih =>
    intro p acc hle
    have e : initColsAux bs r len (f + 1) p acc =
        Res.bind (makeCell (len - (f + 1)) r (nthD (nthRow p r) (len - (f + 1))) bs p)
          (fun cp => initColsAux bs r len f cp.2 (acc ++ [cp.1])) := by
      simp only [initColsAux]
    rw [e, makeCell_eq, Res.bind_ok, ih p _ (by omega)]
    have hr : List.range' (len - (f + 1)) (f + 1) =
        (len - (f + 1)) :: List.range' (len - f) f := by
      have h2 : len - (f + 1) + 1 = len - f := by omega
      rw [List.range'_succ, h2]
    rw [hr]
    simp

/-- The row loop of initialize_board appends the cells of rows
nrows - fuel .. nrows - 1, and leaves the grid unchanged. -/
theorem initRowsAux_eq (bs nrows : Nat) :
    ∀ (fuel : Nat) (p : Grid) (acc : List Cell), fuel ≤ nrows →
      initRowsAux bs nrows fuel p acc =
        .ok (acc ++ (List.range' (nrows - fuel) fuel).flatMap
          (fun r => (List.range' 0 (nthRow p r).length).map (mkCellPure p bs r)), p) := by
  intro fuel
  induction fuel with
  | zero => intro p acc _; simp [initRowsAux]
  | succ f ih =>
    intro p acc hle
    have e : initRowsAux bs nrows (f + 1) p acc =
        Res.bind (initColsAux bs (nrows - (f + 1)) (nthRow p (nrows - (f + 1))).length
            (nthRow p (nrows - (f + 1))).length p acc)
          (fun cp => initRowsAux bs nrows f cp.2 cp.1) := by
      simp only [initRowsAux]
    rw [e, initColsAux_eq _ _ _ _ p acc (le_refl _), Res.bind_ok,
      ih p _ (by omega)]
    have hr : List.range' (nrows - (f + 1)) (f + 1) =
        (nrows - (f + 1)) :: List.range' (nrows - f) f := by
      have h2 : nrows - (f + 1) + 1 = nrows - f := by omega
      rw [List.range'_succ, h2]
    rw [hr]
    simp [Nat.sub_self]

/-- initialize_board on a fresh solver: the grid is untouched and the cell
list is initCells. -/
theorem initialize_board_eq (p : Grid) :
    (mkSolver p).initialize_board =
      .ok (Game.mk p (initCells p (intSqrt p.length)) (intSqrt p.length) 0) := by
  unfold Game.initialize_board
  rw [initRowsAux_eq _ _ _ _ _ (le_refl _)]
  simp [mkSolver, initCells, Nat.sub_self]

/-! ### Claim C8: running the solver on an already-solved grid -/

theorem mkCellPure_pos (p : Grid) (bs r col : Nat)
    (h : 0 < nthD (nthRow p r) col) :
    mkCellPure p bs r col = Cell.mk true (nthD (nthRow p r) col) [] r col 0 := by
  unfold mkCellPure
  rw [if_pos h]

theorem mem_initCells (p : Grid) (bs : Nat) (c : Cell)
    (h : c ∈ initCells p bs) :
    ∃ r col, r < p.length ∧ col < (nthRow p r).length ∧
      c = mkCellPure p bs r col := by
  simp only [initCells, List.mem_flatMap, List.mem_map, List.mem_range'_1] at h
  obtain ⟨r, ⟨hr0, hr⟩, col, ⟨hc0, hc⟩, rfl⟩ := h
  exact ⟨r, col, by omega, by omega, rfl⟩

/-- A cell that is solved with an empty possibility list is untouched by the
loop body's set_number and increment_value: set_number is guarded on not
solved, and the increment_value guard current_index < len - 1 is 0 < -1. -/
theorem cellOps_noop_of_solved_nil (bs : Nat) (c : Cell) (p : Grid)
    (hs : c.solved = true) (hp : c.possibilities = []) :
    cellOps bs c p = .ok (c, p) := by
  simp only [cellOps, Cell.set_number, hs, Res.bind_ok, Cell.increment_value, hp,
    List.length_nil, Nat.zero_sub, incAux_zero]

/-- If the loop body leaves the current cell and the grid unchanged, the
traversal returns the cell list unchanged. -/
theorem applyAt_self (bs : Nat) :
    ∀ (cells : List Cell) (k : Nat) (p : Grid) (c : Cell),
      cells.get? k = some c → cellOps bs c p = .ok (c, p) →
      applyAt bs cells k p = .ok (cells, c, p) := by
  intro cells
  induction cells with
  | nil => intro k p c hg _; simp at hg
  | cons c0 cs ih =>
    intro k p c hg hco
    cases k with
    | zero =>
      have hc0 : c0 = c := by simpa using hg
      subst hc0
      simp only [applyAt, hco]
    | succ k =>
      have hg' : cs.get? k = some c := hg
      simp only [applyAt, ih k p c hg' hco]

/-- move_forward on a list of solved cells walks the cursor from k to the
last position len - 1 (the short-circuit bound stops it there). -/
theorem mfAux_all_solved (cells : List Cell)
    (hall : ∀ c ∈ cells, c.solved = true) :
    ∀ (fuel k : Nat), k + fuel + 1 = cells.length →
      mfAux cells cells.length fuel (Int.ofNat k) =
        .ok (Int.ofNat (cells.length - 1)) := by
  intro fuel
  induction fuel with
  | zero =>
    intro k hk
    have hk1 : cells.length - 1 = k := by omega
    rw [hk1]
    simp only [mfAux]
  | succ f ih =>
    intro k hk
    have hlt : Nat.blt (k + 1) cells.length = true := Nat.blt_eq.mpr (by omega)
    have hkn : k < cells.length := by omega
    obtain ⟨c, hc⟩ : ∃ c, cells.get? k = some c :=
      ⟨cells.get ⟨k, hkn⟩, List.get?_eq_get hkn⟩
    have hsolved : c.solved = true := hall c (List.get?_mem hc)
    have hpy : pyIdx cells.length (Int.ofNat k) = some k := by
      simp [pyIdx, hkn]
    simp only [mfAux, coordLtSub1, hlt, hpy, Option.some_bind, hc, hsolved]
    have hofs : (Int.ofNat k) + 1 = Int.ofNat (k + 1) := rfl
    rw [hofs]
    exact ih (k + 1) (by omega)

/-- C8: on a fully solved 9x9 grid (every entry nonzero, every row, column
and box duplicate-free), initialization marks every cell solved, and
run_solve performs exactly one loop iteration -- move_forward walks to the
last cell, the body leaves it untouched, its validity advances the cursor
to the list length, and the loop guard fails -- returning the grid
unchanged; the module-level solve returns the input grid itself. -/
theorem C8_run_solve_on_solved_grid_is_noop (p : Grid)
    (h9 : p.length = 9)
    (hrl : ∀ r, r < 9 → (nthRow p r).length = 9)
    (hnz : ∀ r, r < 9 → ∀ col, col < 9 → 0 < nthD (nthRow p r) col)
    (hval : ∀ r, r < 9 → ∀ col, col < 9 →
      check_area (get_row p r) = true ∧
      check_area (get_column p col) = true ∧
      check_area (get_box p (intSqrt p.length) r col) = true) :
    ∃ g0 g1,
      (mkSolver p).initialize_board = .ok g0 ∧
      g0.puzzle = p ∧
      (∀ c ∈ g0.solve_puzzle, c.solved = true) ∧
      g0.solve = .ok g1 ∧
      g1.puzzle = p ∧
      coordLeSub1 g1.backtrack_coord g1.solve_puzzle.length = false ∧
      (∀ fuel, 2 ≤ fuel → g0.run_solve fuel = .ok g1) ∧
      (∀ fuel, 2 ≤ fuel → solve p fuel = .ok p) := by
  have hinit := initialize_board_eq p
  obtain ⟨cells, hcells⟩ : ∃ cells, initCells p (intSqrt p.length) = cells := ⟨_, rfl⟩
  rw [hcells] at hinit
  have hmem : ∀ c ∈ cells, c.solved = true ∧ c.possibilities = [] ∧
      c.is_valid p (intSqrt p.length) = true := by
    intro c hcmem
    rw [← hcells] at hcmem
    obtain ⟨r, col, hr, hcol, rfl⟩ := mem_initCells p _ c hcmem
    rw [h9] at hr
    have hlen : (nthRow p r).length = 9 := hrl r hr
    rw [hlen] at hcol
    have hpos := hnz r hr col hcol
    rw [mkCellPure_pos p _ r col hpos]
    obtain ⟨h1, h2, h3⟩ := hval r hr col hcol
    exact ⟨rfl, rfl, by simp [Cell.is_valid, h1, h2, h3]⟩
  have hne : cells ≠ [] := by
    have hm : mkCellPure p (intSqrt p.length) 0 0 ∈ cells := by
      rw [← hcells]
      simp only [initCells, List.mem_flatMap]
      refine ⟨0, ?_, ?_⟩
      · rw [List.mem_range'_1]; omega
      · simp only [List.mem_map]
        refine ⟨0, ?_, rfl⟩
        rw [List.mem_range'_1]
        have := hrl 0 (by omega)
        omega
    exact List.ne_nil_of_mem hm
  have hN1 : 1 ≤ cells.length := by
    cases cells with
    | nil => exact absurd rfl hne
    | cons a l => exact Nat.succ_le_succ (Nat.zero_le _)
  have hmf : (Game.mk p cells (intSqrt p.length) 0).move_forward =
      .ok (Game.mk p cells (intSqrt p.length) (Int.ofNat (cells.length - 1))) := by
    have hm : mfAux cells cells.length
        (((cells.length : Int) - 1) - 0).toNat 0 =
        .ok (Int.ofNat (cells.length - 1)) :=
      mfAux_all_solved cells (fun c hc => (hmem c hc).1)
        ((((cells.length : Int) - 1) - 0).toNat) 0 (by omega)
    simp only [Game.move_forward, hm]
  obtain ⟨cl, hcl⟩ : ∃ c, cells.get? (cells.length - 1) = some c :=
    ⟨cells.get ⟨cells.length - 1, by omega⟩, List.get?_eq_get (by omega)⟩
  obtain ⟨hcls, hclp, hclv⟩ := hmem cl (List.get?_mem hcl)
  have hco := cellOps_noop_of_solved_nil (intSqrt p.length) cl p hcls hclp
  have happ := applyAt_self (intSqrt p.length) cells (cells.length - 1) p cl hcl hco
  have hpy : pyIdx cells.length (Int.ofNat (cells.length - 1)) =
      some (cells.length - 1) := by
    simp [pyIdx, Nat.blt_eq.mpr (show cells.length - 1 < cells.length by omega)]
  have hsolve : (Game.mk p cells (intSqrt p.length) 0).solve =
      .ok (Game.mk p cells (intSqrt p.length) (Int.ofNat (cells.length - 1) + 1)) := by
    simp only [Game.solve, hmf, Res.bind_ok, hpy, happ, hclv]
  have hcoord : (Int.ofNat (cells.length - 1) + 1) = Int.ofNat cells.length := by
    have h1 : cells.length - 1 + 1 = cells.length := by omega
    calc Int.ofNat (cells.length - 1) + 1
        = Int.ofNat (cells.length - 1 + 1) := rfl
      _ = Int.ofNat cells.length := by rw [h1]
  rw [hcoord] at hsolve
  have hguard : coordLeSub1 (Int.ofNat cells.length) cells.length = false := by
    simp only [coordLeSub1]
    cases hb : Nat.blt cells.length cells.length
    · rfl
    · exact absurd (Nat.blt_eq.mp hb) (by omega)
  have hg0 : coordLeSub1 (0 : Int) cells.length = true := by
    show Nat.blt 0 cells.length = true
    exact Nat.blt_eq.mpr (by omega)
  have hrun : ∀ fuel, 2 ≤ fuel →
      (Game.mk p cells (intSqrt p.length) 0).run_solve fuel =
        .ok (Game.mk p cells (intSqrt p.length) (Int.ofNat cells.length)) := by
    intro fuel hf
    match fuel, hf with
    | f + 2, _ =>
      simp only [Game.run_solve, runAux, hg0, hsolve, hguard]
  refine ⟨_, _, hinit, rfl, fun c hc => (hmem c hc).1, hsolve, rfl, hguard, hrun, ?_⟩
  intro fuel hf
  have hr := hrun fuel hf
  simp only [Game.run_solve] at hr
  simp only [solve, hinit, Res.bind_ok, Game.run_solve, hr]

/-- Witness for C8 at the solved grid embedded in the source: running the
solver on it returns it unchanged (fuel 2 covers the single loop iteration
and the exit test). -/
theorem C8_run_solve_on_solved_grid_is_noop_witness :
    solve solution 2 = .ok solution := by
  obtain ⟨g0, g1, -, -, -, -, -, -, -, hs⟩ :=
    C8_run_solve_on_solved_grid_is_noop solution (by decide) (by decide)
      (by decide) (by decide)
  exact hs 2 (by omega)

/-! ### Claim C3: originally fixed entries are never mutated

The shared invariant machinery is parametric in a set P of protected
coordinates and a value function val: the grid holds val at every
protected coordinate, and every cell sitting on a protected coordinate is
solved, with either no possibilities (so neither set_number nor the
decrement guard can touch it) or protected value 0 (so the only write
reset_cell can make restores the protected value). -/

theorem Res.bind_eq_ok {α β : Type} {x : Res α} {f : α → Res β} {b : β}
    (h : Res.bind x f = .ok b) : ∃ a, x = .ok a ∧ f a = .ok b := by
  cases x with
  | ok a => exact ⟨a, rfl, h⟩
  | fault => exact Res.noConfusion h
  | noFuel => exact Res.noConfusion h

theorem Res.match_ok {α β : Type} (x : Res α) (F : α → β) (b : β)
    (h : (match x with
          | .ok a => Res.ok (F a)
          | .fault => .fault
          | .noFuel => .noFuel) = .ok b) : ∃ a, x = .ok a ∧ F a = b := by
  cases x with
  | ok a => exact ⟨a, rfl, Res.ok.inj h⟩
  | fault => exact Res.noConfusion h
  | noFuel => exact Res.noConfusion h

theorem nthRow_set_ne : ∀ (p : Grid) (r : Nat) (x : List Nat) (r' : Nat),
    r' ≠ r → nthRow (p.set r x) r' = nthRow p r' := by
  intro p
  induction p with
  | nil => intro r x r' _; rfl
  | cons a l ih =>
    intro r x r' h
    cases r with
    | zero =>
      cases r' with
      | zero => exact absurd rfl h
      | succ s => rfl
    | succ t =>
      cases r' with
      | zero => rfl
      | succ s => exact ih t x s (fun hh => h (by rw [hh]))

theorem nthRow_set_self_or : ∀ (p : Grid) (r : Nat) (x : List Nat),
    nthRow (p.set r x) r = x ∨ nthRow (p.set r x) r = nthRow p r := by
  intro p
  induction p with
  | nil => intro r x; right; rfl
  | cons a l ih =>
    intro r x
    cases r with
    | zero => left; rfl
    | succ t => exact ih t x

theorem nthD_set_ne : ∀ (l : List Nat) (c v : Nat) (c' : Nat),
    c' ≠ c → nthD (l.set c v) c' = nthD l c' := by
  intro l
  induction l with
  | nil => intro c v c' _; rfl
  | cons a xs ih =>
    intro c v c' h
    cases c with
    | zero =>
      cases c' with
      | zero => exact absurd rfl h
      | succ s => rfl
    | succ t =>
      cases c' with
      | zero => rfl
      | succ s => exact ih t v s (fun hh => h (by rw [hh]))

theorem nthD_set_self_or : ∀ (l : List Nat) (c v : Nat),
    nthD (l.set c v) c = v ∨ nthD (l.set c v) c = nthD l c := by
  intro l
  induction l with
  | nil => intro c v; right; rfl
  | cons a xs ih =>
    intro c v
    cases c with
    | zero => left; rfl
    | succ t => exact ih t v

theorem nthD_setGrid_ne (p : Grid) (r c v r' c' : Nat)
    (h : ¬(r' = r ∧ c' = c)) :
    nthD (nthRow (setGrid p r c v) r') c' = nthD (nthRow p r') c' := by
  by_cases hr : r' = r
  · subst hr
    have hc : c' ≠ c := fun hcc => h ⟨rfl, hcc⟩
    unfold setGrid
    rcases nthRow_set_self_or p r' ((nthRow p r').set c v) with he | he
    · rw [he, nthD_set_ne _ _ _ _ hc]
    · rw [he]
  · unfold setGrid
    rw [nthRow_set_ne _ _ _ _ hr]

theorem nthD_setGrid_self_or (p : Grid) (r c v : Nat) :
    nthD (nthRow (setGrid p r c v) r) c = v ∨
      nthD (nthRow (setGrid p r c v) r) c = nthD (nthRow p r) c := by
  unfold setGrid
  rcases nthRow_set_self_or p r ((nthRow p r).set c v) with he | he
  · rw [he]; exact nthD_set_self_or _ _ _
  · rw [he]; right; rfl

theorem protGrid_setGrid_unprot (P : Nat → Nat → Prop) (val : Nat → Nat → Nat)
    (p : Grid) (r c v : Nat) (hg : protGrid P val p) (hnp : ¬ P r c) :
    protGrid P val (setGrid p r c v) := by
  intro r' c' hP
  have hne : ¬(r' = r ∧ c' = c) := by
    rintro ⟨rfl, rfl⟩; exact hnp hP
  rw [nthD_setGrid_ne p r c v r' c' hne]
  exact hg r' c' hP

theorem protGrid_setGrid_zero (P : Nat → Nat → Prop) (val : Nat → Nat → Nat)
    (p : Grid) (r c : Nat) (hg : protGrid P val p) (hv : val r c = 0) :
    protGrid P val (setGrid p r c 0) := by
  intro r' c' hP
  by_cases he : r' = r ∧ c' = c
  · obtain ⟨rfl, rfl⟩ := he
    rcases nthD_setGrid_self_or p r' c' 0 with h | h
    · rw [h]; exact hv.symm
    · rw [h]; exact hg r' c' hP
  · rw [nthD_setGrid_ne p r c 0 r' c' he]
    exact hg r' c' hP

theorem set_number_prot (P : Nat → Nat → Prop) (val : Nat → Nat → Nat)
    (c : Cell) (p : Grid) (c2 : Cell) (p2 : Grid)
    (h : c.set_number p = .ok (c2, p2))
    (hc : protCell P val c) (hg : protGrid P val p) :
    protCell P val c2 ∧ protGrid P val p2 := by
  unfold Cell.set_number at h
  cases hs : c.solved with
  | true =>
    rw [hs] at h
    have hp := Res.ok.inj h
    obtain ⟨rfl, rfl⟩ : c = c2 ∧ p = p2 :=
      ⟨congrArg Prod.fst hp, congrArg Prod.snd hp⟩
    exact ⟨hc, hg⟩
  | false =>
    rw [hs] at h
    cases hv : c.possibilities.get? c.current_index with
    | none => rw [hv] at h; exact Res.noConfusion h
    | some v =>
      rw [hv] at h
      have hp := Res.ok.inj h
      have h1 := congrArg Prod.fst hp
      have h2 := congrArg Prod.snd hp
      dsimp only at h1 h2
      subst h1
      subst h2
      have hnp : ¬ P c.row c.column := fun hP => by
        have := (hc hP).1
        rw [hs] at this
        exact Bool.noConfusion this
      refine ⟨fun hP => absurd hP hnp, ?_⟩
      exact protGrid_setGrid_unprot P val p c.row c.column v hg hnp

theorem incAux_prot (P : Nat → Nat → Prop) (val : Nat → Nat → Nat) (bs : Nat) :
    ∀ (fuel : Nat) (c : Cell) (p : Grid) (c2 : Cell) (p2 : Grid),
      incAux bs fuel c p = .ok (c2, p2) →
      protCell P val c → protGrid P val p →
      protCell P val c2 ∧ protGrid P val p2 := by
  intro fuel
  induction fuel with
  | zero =>
    intro c p c2 p2 h hc hg
    rw [incAux_zero] at h
    have hp := Res.ok.inj h
    obtain ⟨rfl, rfl⟩ : c = c2 ∧ p = p2 :=
      ⟨congrArg Prod.fst hp, congrArg Prod.snd hp⟩
    exact ⟨hc, hg⟩
  | succ f ih =>
    intro c p c2 p2 h hc hg
    cases hv : c.is_valid p bs with
    | true =>
      rw [incAux_valid bs f c p hv] at h
      have hp := Res.ok.inj h
      obtain ⟨rfl, rfl⟩ : c = c2 ∧ p = p2 :=
        ⟨congrArg Prod.fst hp, congrArg Prod.snd hp⟩
      exact ⟨hc, hg⟩
    | false =>
      cases hb : Nat.blt (c.current_index + 1) c.possibilities.length with
      | false =>
        rw [incAux_invalid_last bs f c p hv hb] at h
        have hp := Res.ok.inj h
        obtain ⟨rfl, rfl⟩ : c = c2 ∧ p = p2 :=
          ⟨congrArg Prod.fst hp, congrArg Prod.snd hp⟩
        exact ⟨hc, hg⟩
      | true =>
        rw [incAux_invalid_step bs f c p hv hb] at h
        have hc' : protCell P val { c with current_index := c.current_index + 1 } := hc
        obtain ⟨cp, hsn, h2⟩ := Res.bind_eq_ok h
        cases cp with
        | mk cc pp =>
          obtain ⟨hcc, hpp⟩ :=
            set_number_prot P val _ p cc pp hsn hc' hg
          exact ih cc pp c2 p2 h2 hcc hpp

theorem cellOps_prot (P : Nat → Nat → Prop) (val : Nat → Nat → Nat) (bs : Nat)
    (c : Cell) (p : Grid) (c2 : Cell) (p2 : Grid)
    (h : cellOps bs c p = .ok (c2, p2))
    (hc : protCell P val c) (hg : protGrid P val p) :
    protCell P val c2 ∧ protGrid P val p2 := by
  unfold cellOps at h
  obtain ⟨cp, hsn, h2⟩ := Res.bind_eq_ok h
  cases cp with
  | mk cc pp =>
    obtain ⟨hcc, hpp⟩ := set_number_prot P val c p cc pp hsn hc hg
    have h2' : incAux bs (cc.possibilities.length - (cc.current_index + 1)) cc pp =
        .ok (c2, p2) := h2
    exact incAux_prot P val bs _ cc pp c2 p2 h2' hcc hpp

theorem applyAt_prot (P : Nat → Nat → Prop) (val : Nat → Nat → Nat) (bs : Nat) :
    ∀ (cells : List Cell) (k : Nat) (p : Grid) (cells2 : List Cell)
      (c2 : Cell) (p2 : Grid),
      applyAt bs cells k p = .ok (cells2, c2, p2) →
      (∀ x ∈ cells, protCell P val x) → protGrid P val p →
      (∀ x ∈ cells2, protCell P val x) ∧ protCell P val c2 ∧ protGrid P val p2 := by
  intro cells
  induction cells with
  | nil =>
    intro k p cells2 c2 p2 h _ _
    simp only [applyAt] at h
    exact Res.noConfusion h
  | cons c0 cs ih =>
    intro k p cells2 c2 p2 h hcs hg
    cases k with
    | zero =>
      cases hco : cellOps bs c0 p with
      | fault => simp only [applyAt, hco] at h; exact Res.noConfusion h
      | noFuel => simp only [applyAt, hco] at h; exact Res.noConfusion h
      | ok cp =>
        cases cp with
        | mk cc pp =>
          simp only [applyAt, hco] at h
          have hp := Res.ok.inj h
          obtain ⟨rfl, rfl, rfl⟩ :
              (cc :: cs) = cells2 ∧ cc = c2 ∧ pp = p2 :=
            ⟨congrArg Prod.fst hp, congrArg (fun x => x.2.1) hp,
              congrArg (fun x => x.2.2) hp⟩
          obtain ⟨hcc, hpp⟩ := cellOps_prot P val bs c0 p cc pp hco
            (hcs c0 (List.mem_cons_self c0 cs)) hg
          refine ⟨?_, hcc, hpp⟩
          intro x hx
          rcases List.mem_cons.mp hx with rfl | hx'
          · exact hcc
          · exact hcs x (List.mem_cons_of_mem c0 hx')
    | succ k =>
      cases happ : applyAt bs cs k p with
      | fault => simp only [applyAt, happ] at h; exact Res.noConfusion h
      | noFuel => simp only [applyAt, happ] at h; exact Res.noConfusion h
      | ok t =>
        obtain ⟨cs2, cc, pp⟩ := t
        simp only [applyAt, happ] at h
        have hp := Res.ok.inj h
        obtain ⟨rfl, rfl, rfl⟩ :
            (c0 :: cs2) = cells2 ∧ cc = c2 ∧ pp = p2 :=
          ⟨congrArg Prod.fst hp, congrArg (fun x => x.2.1) hp,
            congrArg (fun x => x.2.2) hp⟩
        obtain ⟨hcs2, hcc, hpp⟩ := ih k p cs2 cc pp happ
          (fun x hx => hcs x (List.mem_cons_of_mem c0 hx)) hg
        refine ⟨?_, hcc, hpp⟩
        intro x hx
        rcases List.mem_cons.mp hx with rfl | hx'
        · exact hcs x (List.mem_cons_self _ _)
        · exact hcs2 x hx'

theorem reset_cell_prot (P : Nat → Nat → Prop) (val : Nat → Nat → Nat)
    (g : Game) (k : Nat) (c : Cell)
    (hget : g.solve_puzzle.get? k = some c) (hposs : c.possibilities ≠ [])
    (hg : protGrid P val g.puzzle)
    (hcs : ∀ x ∈ g.solve_puzzle, protCell P val x) :
    protGrid P val (g.reset_cell k).puzzle ∧
      ∀ x ∈ (g.reset_cell k).solve_puzzle, protCell P val x := by
  unfold Game.reset_cell
  rw [hget]
  constructor
  · by_cases hP : P c.row c.column
    · rcases (hcs c (List.get?_mem hget) hP).2 with hnil | hval0
      · exact absurd hnil hposs
      · exact protGrid_setGrid_zero P val g.puzzle c.row c.column hg hval0
    · exact protGrid_setGrid_unprot P val g.puzzle c.row c.column 0 hg hP
  · intro x hx
    rcases List.mem_or_eq_of_mem_set hx with hx' | rfl
    · exact hcs x hx'
    · exact hcs c (List.get?_mem hget)

theorem backtrack_fields (g g2 : Game) (h : g.backtrack = .ok g2) :
    g2.puzzle = g.puzzle ∧ g2.solve_puzzle = g.solve_puzzle ∧
      g2.box_size = g.box_size := by
  unfold Game.backtrack at h
  obtain ⟨coord, _, h2⟩ := Res.bind_eq_ok h
  have := Res.ok.inj h2
  subst this
  exact ⟨rfl, rfl, rfl⟩

theorem decAux_prot (P : Nat → Nat → Prop) (val : Nat → Nat → Nat) (bs : Nat) :
    ∀ (fuel : Nat) (g : Game) (k : Nat) (g2 : Game),
      decAux bs fuel g k = .ok g2 →
      protGrid P val g.puzzle → (∀ x ∈ g.solve_puzzle, protCell P val x) →
      protGrid P val g2.puzzle ∧ ∀ x ∈ g2.solve_puzzle, protCell P val x := by
  intro fuel
  induction fuel with
  | zero =>
    intro g k g2 h _ _
    simp only [decAux] at h
    exact Res.noConfusion h
  | succ f ih =>
    intro g k g2 h hg hcs
    simp only [decAux] at h
    cases hget : g.solve_puzzle.get? k with
    | none => simp only [hget] at h; exact Res.noConfusion h
    | some c =>
      simp only [hget] at h
      cases hbeq : c.current_index + 1 == c.possibilities.length with
      | false =>
        simp only [hbeq] at h
        have := Res.ok.inj h
        subst this
        refine ⟨hg, ?_⟩
        intro x hx
        rcases List.mem_or_eq_of_mem_set hx with hx' | rfl
        · exact hcs x hx'
        · exact hcs c (List.get?_mem hget)
      | true =>
        simp only [hbeq] at h
        have hposs : c.possibilities ≠ [] := by
          have hlen : c.current_index + 1 = c.possibilities.length := by
            have hb := hbeq
            simp only [beq_iff_eq] at hb
            exact hb
          intro hnil
          rw [hnil] at hlen
          simp at hlen
        obtain ⟨hg', hcs'⟩ := reset_cell_prot P val g k c hget hposs hg hcs
        obtain ⟨g3, hb3, h3⟩ := Res.bind_eq_ok h
        obtain ⟨hp3, hsp3, _⟩ := backtrack_fields _ _ hb3
        cases hpy : pyIdx g3.solve_puzzle.length g3.backtrack_coord with
        | none => simp only [hpy] at h3; exact Res.noConfusion h3
        | some k2 =>
          simp only [hpy] at h3
          exact ih g3 k2 g2 h3 (by rw [hp3]; exact hg')
            (by rw [hsp3]; exact hcs')

theorem move_forward_fields (g g2 : Game) (h : g.move_forward = .ok g2) :
    g2.puzzle = g.puzzle ∧ g2.solve_puzzle = g.solve_puzzle ∧
      g2.box_size = g.box_size := by
  simp only [Game.move_forward] at h
  revert h
  cases hm : mfAux g.solve_puzzle g.solve_puzzle.length
      (((g.solve_puzzle.length : Int)) - 1 - g.backtrack_coord).toNat
      g.backtrack_coord with
  | ok coord =>
    intro h
    have h3 := Res.ok.inj
      (show Res.ok { g with backtrack_coord := coord } = Res.ok g2 from h)
    subst h3
    exact ⟨rfl, rfl, rfl⟩
  | fault =>
    intro h
    exact Res.noConfusion (show Res.fault = Res.ok g2 from h)
  | noFuel =>
    intro h
    exact Res.noConfusion (show Res.noFuel = Res.ok g2 from h)

theorem solve_prot (P : Nat → Nat → Prop) (val : Nat → Nat → Nat)
    (g g2 : Game) (h : g.solve = .ok g2)
    (hg : protGrid P val g.puzzle)
    (hcs : ∀ x ∈ g.solve_puzzle, protCell P val x) :
    protGrid P val g2.puzzle ∧ ∀ x ∈ g2.solve_puzzle, protCell P val x := by
  unfold Game.solve at h
  obtain ⟨g1, hmf, h1⟩ := Res.bind_eq_ok h
  obtain ⟨hp1, hsp1, _⟩ := move_forward_fields g g1 hmf
  have hg1 : protGrid P val g1.puzzle := by rw [hp1]; exact hg
  have hcs1 : ∀ x ∈ g1.solve_puzzle, protCell P val x := by
    rw [hsp1]; exact hcs
  cases hpy : pyIdx g1.solve_puzzle.length g1.backtrack_coord with
  | none => simp only [hpy] at h1; exact Res.noConfusion h1
  | some k =>
    simp only [hpy] at h1
    cases happ : applyAt g1.box_size g1.solve_puzzle k g1.puzzle with
    | fault => simp only [happ] at h1; exact Res.noConfusion h1
    | noFuel => simp only [happ] at h1; exact Res.noConfusion h1
    | ok t =>
      obtain ⟨cells2, c2, p2⟩ := t
      simp only [happ] at h1
      obtain ⟨hcells2, hc2, hp2⟩ := applyAt_prot P val g1.box_size
        g1.solve_puzzle k g1.puzzle cells2 c2 p2 happ hcs1 hg1
      cases hv : c2.is_valid p2 g1.box_size with
      | true =>
        simp only [hv] at h1
        have := Res.ok.inj h1
        subst this
        exact ⟨hp2, hcells2⟩
      | false =>
        simp only [hv] at h1
        unfold Game.decrement_cell at h1
        exact decAux_prot P val _ _ _ _ g2 h1 hp2 hcells2

theorem runAux_prot (P : Nat → Nat → Prop) (val : Nat → Nat → Nat) :
    ∀ (fuel : Nat) (g g2 : Game), runAux fuel g = .ok g2 →
      protGrid P val g.puzzle → (∀ x ∈ g.solve_puzzle, protCell P val x) →
      protGrid P val g2.puzzle ∧ ∀ x ∈ g2.solve_puzzle, protCell P val x := by
  intro fuel
  induction fuel with
  | zero =>
    intro g g2 h _ _
    simp only [runAux] at h
    exact Res.noConfusion h
  | succ f ih =>
    intro g g2 h hg hcs
    simp only [runAux] at h
    cases hc : coordLeSub1 g.backtrack_coord g.solve_puzzle.length with
    | false =>
      simp only [hc] at h
      have := Res.ok.inj h
      subst this
      exact ⟨hg, hcs⟩
    | true =>
      simp only [hc] at h
      cases hs : g.solve with
      | fault => simp only [hs] at h; exact Res.noConfusion h
      | noFuel => simp only [hs] at h; exact Res.noConfusion h
      | ok g1 =>
        simp only [hs] at h
        obtain ⟨hg1, hcs1⟩ := solve_prot P val g g1 hs hg hcs
        exact ih g1 g2 h hg1 hcs1

theorem mkCellPure_row (p : Grid) (bs r col : Nat) :
    (mkCellPure p bs r col).row = r := by
  unfold mkCellPure
  split <;> rfl

theorem mkCellPure_column (p : Grid) (bs r col : Nat) :
    (mkCellPure p bs r col).column = col := by
  unfold mkCellPure
  split <;> rfl

/-- C3: whenever the module-level solve completes, every coordinate whose
input entry was nonzero holds its original value in the returned grid: the
search never mutates a cell fixed by the original puzzle. -/
theorem C3_nonzero_input_entries_are_preserved (p : Grid) (fuel : Nat)
    (out : Grid) (hrun : solve p fuel = .ok out) :
    ∀ r c, 0 < nthD (nthRow p r) c →
      nthD (nthRow out r) c = nthD (nthRow p r) c := by
  intro r c hpos
  unfold solve at hrun
  rw [initialize_board_eq p, Res.bind_ok] at hrun
  obtain ⟨g2, hr, hout⟩ := Res.bind_eq_ok hrun
  have hout' : g2.puzzle = out := Res.ok.inj hout
  have hinit_cells : ∀ x ∈ initCells p (intSqrt p.length),
      protCell (fun r c => 0 < nthD (nthRow p r) c)
        (fun r c => nthD (nthRow p r) c) x := by
    intro x hx
    obtain ⟨r', col', hr', hcol', rfl⟩ := mem_initCells p _ x hx
    intro hP
    rw [mkCellPure_row, mkCellPure_column] at hP
    rw [mkCellPure_pos p _ r' col' hP]
    exact ⟨rfl, Or.inl rfl⟩
  have hr' : runAux fuel
      (Game.mk p (initCells p (intSqrt p.length)) (intSqrt p.length) 0) =
      .ok g2 := hr
  obtain ⟨hgout, -⟩ := runAux_prot (fun r c => 0 < nthD (nthRow p r) c)
    (fun r c => nthD (nthRow p r) c) fuel _ g2 hr'
    (fun _ _ _ => rfl) hinit_cells
  rw [← hout']
  exact hgout r c hpos

/-- Witness for C3 at the solved grid from the source (on which solve
completes, by one iteration): its (0,0) entry 5 is preserved. -/
theorem C3_nonzero_input_entries_are_preserved_witness :
    solve solution 2 = .ok solution ∧ 0 < nthD (nthRow solution 0) 0 ∧
      nthD (nthRow solution 0) 0 = nthD (nthRow solution 0) 0 :=
  ⟨by decide, by decide,
    C3_nonzero_input_entries_are_preserved solution 2 solution (by decide)
      0 0 (by decide)⟩

/-! ### Claim C2: the classic example puzzle -/

theorem steps_prot (P : Nat → Nat → Prop) (val : Nat → Nat → Nat) :
    ∀ (n : Nat) (g g2 : Game), steps n g = .ok g2 →
      protGrid P val g.puzzle → (∀ x ∈ g.solve_puzzle, protCell P val x) →
      protGrid P val g2.puzzle ∧ ∀ x ∈ g2.solve_puzzle, protCell P val x := by
  intro n
  induction n with
  | zero =>
    intro g g2 h hg hcs
    simp only [steps] at h
    have := Res.ok.inj h
    subst this
    exact ⟨hg, hcs⟩
  | succ m ih =>
    intro g g2 h hg hcs
    simp only [steps] at h
    cases hc : coordLeSub1 g.backtrack_coord g.solve_puzzle.length with
    | false =>
      simp only [hc] at h
      have := Res.ok.inj h
      subst this
      exact ⟨hg, hcs⟩
    | true =>
      simp only [hc] at h
      cases hs : g.solve with
      | fault => simp only [hs] at h; exact Res.noConfusion h
      | noFuel => simp only [hs] at h; exact Res.noConfusion h
      | ok g1 =>
        simp only [hs] at h
        obtain ⟨hg1, hcs1⟩ := solve_prot P val g g1 hs hg hcs
        exact ih g1 g2 h hg1 hcs1

/-- The cells of the classic puzzle's board are protected at coordinate
(4, 4): the entry there is 0, its candidate list is the singleton [5], so
construction marks it solved (with value 0, the commit being a no-op), and
no later operation can write anything but 0 there. -/
theorem initCells_puzzle_hole_prot :
    ∀ x ∈ initCells puzzle (intSqrt puzzle.length),
      protCell (fun r c => r = 4 ∧ c = 4) (fun _ _ => 0) x := by
  intro x hx
  obtain ⟨r', col', hr', hcol', rfl⟩ := mem_initCells puzzle _ x hx
  intro hP
  rw [mkCellPure_row, mkCellPure_column] at hP
  obtain ⟨rfl, rfl⟩ := hP
  refine ⟨?_, Or.inr rfl⟩
  decide

/-- C2 (amended): on the classic example puzzle, the one-possibility
construction bug leaves the singleton-candidate cell at (4, 4) solved with
value 0 and its grid entry 0 in every state the main loop can reach, so any
grid solve returns still has 0 at (4, 4) and is never the unique completion
(which has 5 there): solve does not return the claimed solution. -/
theorem C2_classic_puzzle_output_keeps_hole (n : Nat) (g0 g' : Game)
    (hinit : (mkSolver puzzle).initialize_board = .ok g0)
    (hsteps : steps n g0 = .ok g') :
    nthD (nthRow g'.puzzle 4) 4 = 0 ∧
      ∀ fuel out, solve puzzle fuel = .ok out →
        nthD (nthRow out 4) 4 = 0 ∧ out ≠ solution := by
  have hg0 : g0 = Game.mk puzzle (initCells puzzle (intSqrt puzzle.length))
      (intSqrt puzzle.length) 0 := by
    rw [initialize_board_eq puzzle] at hinit
    exact (Res.ok.inj hinit).symm
  subst hg0
  have hgrid0 : protGrid (fun r c => r = 4 ∧ c = 4) (fun _ _ => 0) puzzle := by
    rintro r c ⟨rfl, rfl⟩
    decide
  obtain ⟨hg', -⟩ := steps_prot (fun r c => r = 4 ∧ c = 4) (fun _ _ => 0)
    n _ g' hsteps hgrid0 initCells_puzzle_hole_prot
  refine ⟨hg' 4 4 ⟨rfl, rfl⟩, ?_⟩
  intro fuel out hout
  unfold solve at hout
  rw [initialize_board_eq puzzle, Res.bind_ok] at hout
  obtain ⟨g2, hr, houteq⟩ := Res.bind_eq_ok hout
  have hr' : runAux fuel (Game.mk puzzle (initCells puzzle (intSqrt puzzle.length))
      (intSqrt puzzle.length) 0) = .ok g2 := hr
  obtain ⟨hg2, -⟩ := runAux_prot (fun r c => r = 4 ∧ c = 4) (fun _ _ => 0)
    fuel _ g2 hr' hgrid0 initCells_puzzle_hole_prot
  have hout4 : nthD (nthRow out 4) 4 = 0 := by
    have hsol : g2.puzzle = out := Res.ok.inj houteq
    rw [← hsol]
    exact hg2 4 4 ⟨rfl, rfl⟩
  refine ⟨hout4, ?_⟩
  intro hcon
  rw [hcon] at hout4
  exact absurd hout4 (by decide)

/-- Witness for the amended C2 at the initial state itself (zero loop
iterations): initialization succeeds and the (4, 4) entry is 0. -/
theorem C2_classic_puzzle_output_keeps_hole_witness :
    nthD (nthRow (Game.mk puzzle (initCells puzzle (intSqrt puzzle.length))
        (intSqrt puzzle.length) 0).puzzle 4) 4 = 0 ∧
      ∀ fuel out, solve puzzle fuel = .ok out →
        nthD (nthRow out 4) 4 = 0 ∧ out ≠ solution :=
  C2_classic_puzzle_output_keeps_hole 0 _ _ (initialize_board_eq puzzle) rfl

/-- Counterexample to C2 as claimed: no amount of fuel makes solve return
the unique completion of the classic puzzle, because the returned grid
always has 0 at (4, 4) where the completion has 5. -/
theorem C2_classic_puzzle_output_keeps_hole_counterexample :
    ¬ ∃ fuel, solve puzzle fuel = Res.ok solution := by
  rintro ⟨fuel, h⟩
  have hgrid0 : protGrid (fun r c => r = 4 ∧ c = 4) (fun _ _ => 0) puzzle := by
    rintro r c ⟨rfl, rfl⟩
    decide
  unfold solve at h
  rw [initialize_board_eq puzzle, Res.bind_ok] at h
  obtain ⟨g2, hr, houteq⟩ := Res.bind_eq_ok h
  have hr' : runAux fuel (Game.mk puzzle (initCells puzzle (intSqrt puzzle.length))
      (intSqrt puzzle.length) 0) = .ok g2 := hr
  obtain ⟨hg2, -⟩ := runAux_prot (fun r c => r = 4 ∧ c = 4) (fun _ _ => 0)
    fuel _ g2 hr' hgrid0 initCells_puzzle_hole_prot
  have hsol : g2.puzzle = solution := Res.ok.inj houteq
  have h4 := hg2 4 4 ⟨rfl, rfl⟩
  rw [hsol] at h4
  exact absurd h4 (by decide)

/-! ### Claim C6: validity of the cells before the cursor

Infrastructure about check_area: the bit set guard is Nat.testBit, the
check is monotone in the seen set, survives replacing any entry by 0, and
is insensitive to writes outside the area. -/

theorem bitGuard_eq_testBit (s x : Nat) :
    Nat.beq (Nat.land (Nat.shiftRight s x) 1) 1 = Nat.testBit s x := by
  rw [Nat.testBit_to_div_mod]
  have h1 : Nat.land (Nat.shiftRight s x) 1 = s / 2 ^ x % 2 := by
    have e : Nat.shiftRight s x = s / 2 ^ x := Nat.shiftRight_eq_div_pow s x
    rw [e]
    exact Nat.and_one_is_mod _
  rw [h1]
  cases h : Nat.beq (s / 2 ^ x % 2) 1
  · exact (decide_eq_false (Nat.ne_of_beq_eq_false h)).symm
  · exact (decide_eq_true (Nat.eq_of_beq_eq_true h)).symm

theorem testBit_lor_shift (s x b : Nat) :
    Nat.testBit (Nat.lor s (Nat.shiftLeft 1 x)) b =
      (Nat.testBit s b || decide (x = b)) := by
  have h : Nat.lor s (Nat.shiftLeft 1 x) = s ||| (1 <<< x) := rfl
  rw [h, Nat.testBit_lor, Nat.one_shiftLeft, Nat.testBit_two_pow]

theorem check_area_aux_mono : ∀ (l : List Nat) (s s' : Nat),
    (∀ b, Nat.testBit s b = true → Nat.testBit s' b = true) →
    check_area_aux l s' = true → check_area_aux l s = true := by
  intro l
  induction l with
  | nil => intro s s' _ _; rfl
  | cons x xs ih =>
    intro s s' hsub h
    cases hx : Nat.beq x 0 with
    | true =>
      simp only [check_area_aux, hx] at h ⊢
      exact ih s s' hsub h
    | false =>
      simp only [check_area_aux, hx] at h ⊢
      cases hg' : Nat.beq (Nat.land (Nat.shiftRight s' x) 1) 1 with
      | true => simp only [hg'] at h; exact Bool.noConfusion h
      | false =>
        simp only [hg'] at h
        have hgs : Nat.beq (Nat.land (Nat.shiftRight s x) 1) 1 = false := by
          cases hg : Nat.beq (Nat.land (Nat.shiftRight s x) 1) 1
          · rfl
          · rw [bitGuard_eq_testBit] at hg hg'
            rw [hsub x hg] at hg'
            exact Bool.noConfusion hg'
        simp only [hgs]
        apply ih _ _ _ h
        intro b hb
        rw [testBit_lor_shift] at hb ⊢
        cases hxb : decide (x = b)
        · rw [hxb, Bool.or_false] at hb
          rw [Bool.or_false]
          exact hsub b hb
        · exact Bool.or_true _

theorem check_area_aux_mid_zero :
    ∀ (l1 : List Nat) (x : Nat) (l2 : List Nat) (s : Nat),
      check_area_aux (l1 ++ x :: l2) s = true →
      check_area_aux (l1 ++ 0 :: l2) s = true := by
  intro l1
  induction l1 with
  | nil =>
    intro x l2 s h
    simp only [List.nil_append] at h ⊢
    show check_area_aux l2 s = true
    cases hx : Nat.beq x 0 with
    | true =>
      simp only [check_area_aux, hx] at h
      exact h
    | false =>
      simp only [check_area_aux, hx] at h
      cases hg : Nat.beq (Nat.land (Nat.shiftRight s x) 1) 1
      · simp only [hg] at h
        apply check_area_aux_mono l2 s _ _ h
        intro b hb
        rw [testBit_lor_shift, hb, Bool.true_or]
      · simp only [hg] at h
        exact Bool.noConfusion h
  | cons y l1 ih =>
    intro x l2 s h
    simp only [List.cons_append] at h ⊢
    cases hy : Nat.beq y 0 with
    | true =>
      simp only [check_area_aux, hy] at h ⊢
      exact ih x l2 s h
    | false =>
      simp only [check_area_aux, hy] at h ⊢
      cases hg : Nat.beq (Nat.land (Nat.shiftRight s y) 1) 1
      · simp only [hg] at h ⊢
        exact ih x l2 _ h
      · simp only [hg] at h
        exact Bool.noConfusion h

theorem check_area_aux_set_zero : ∀ (l : List Nat) (i s : Nat),
    check_area_aux l s = true → check_area_aux (l.set i 0) s = true := by
  intro l
  induction l with
  | nil => intro i s h; exact h
  | cons x xs ih =>
    intro i s h
    cases i with
    | zero =>
      show check_area_aux xs s = true
      cases hx : Nat.beq x 0 with
      | true => simp only [check_area_aux, hx] at h; exact h
      | false =>
        simp only [check_area_aux, hx] at h
        cases hg : Nat.beq (Nat.land (Nat.shiftRight s x) 1) 1
        · simp only [hg] at h
          apply check_area_aux_mono xs s _ _ h
          intro b hb
          rw [testBit_lor_shift, hb, Bool.true_or]
        · simp only [hg] at h
          exact Bool.noConfusion h
    | succ j =>
      show check_area_aux (x :: xs.set j 0) s = true
      cases hx : Nat.beq x 0 with
      | true =>
        simp only [check_area_aux, hx] at h ⊢
        exact ih j s h
      | false =>
        simp only [check_area_aux, hx] at h ⊢
        cases hg : Nat.beq (Nat.land (Nat.shiftRight s x) 1) 1
        · simp only [hg] at h ⊢
          exact ih j _ h
        · simp only [hg] at h
          exact Bool.noConfusion h

theorem zeroDiff_cons (y : Nat) {l l' : List Nat} (h : ZeroDiff l l') :
    ZeroDiff (y :: l) (y :: l') := by
  rcases h with rfl | ⟨a, x, b, rfl, rfl⟩
  · exact Or.inl rfl
  · exact Or.inr ⟨y :: a, x, b, rfl, rfl⟩

theorem zeroDiff_append_left (A : List Nat) {l l' : List Nat}
    (h : ZeroDiff l l') : ZeroDiff (A ++ l) (A ++ l') := by
  rcases h with rfl | ⟨a, x, b, rfl, rfl⟩
  · exact Or.inl rfl
  · exact Or.inr ⟨A ++ a, x, b, by rw [List.append_assoc], by rw [List.append_assoc]⟩

theorem zeroDiff_append_right (B : List Nat) {l l' : List Nat}
    (h : ZeroDiff l l') : ZeroDiff (l ++ B) (l' ++ B) := by
  rcases h with rfl | ⟨a, x, b, rfl, rfl⟩
  · exact Or.inl rfl
  · exact Or.inr ⟨a, x, b ++ B, by simp, by simp⟩

theorem check_area_zeroDiff {l l' : List Nat} (h : ZeroDiff l l')
    (hc : check_area l = true) : check_area l' = true := by
  rcases h with rfl | ⟨a, x, b, rfl, rfl⟩
  · exact hc
  · exact check_area_aux_mid_zero a x b 0 hc

theorem sliceFrom_set_outside : ∀ (l : List Nat) (c v s k : Nat),
    ¬(s ≤ c ∧ c < s + k) → sliceFrom (l.set c v) s k = sliceFrom l s k := by
  intro l
  induction l with
  | nil => intro c v s k _; rfl
  | cons x xs ih =>
    intro c v s k h
    cases s with
    | zero =>
      cases c with
      | zero =>
        have hk : k = 0 := by omega
        subst hk
        rfl
      | succ t =>
        cases k with
        | zero => rfl
        | succ k' =>
          show x :: sliceFrom (xs.set t v) 0 k' = x :: sliceFrom xs 0 k'
          rw [ih t v 0 k' (by omega)]
    | succ s' =>
      cases c with
      | zero => rfl
      | succ t =>
        show sliceFrom (xs.set t v) s' k = sliceFrom xs s' k
        exact ih t v s' k (by omega)

theorem sliceFrom_set_zeroDiff : ∀ (l : List Nat) (c s k : Nat),
    ZeroDiff (sliceFrom l s k) (sliceFrom (l.set c 0) s k) := by
  intro l
  induction l with
  | nil => intro c s k; exact Or.inl rfl
  | cons x xs ih =>
    intro c s k
    cases s with
    | zero =>
      cases k with
      | zero => cases c <;> exact Or.inl rfl
      | succ k' =>
        cases c with
        | zero => exact Or.inr ⟨[], x, sliceFrom xs 0 k', rfl, rfl⟩
        | succ t => exact zeroDiff_cons x (ih t 0 k')
    | succ s' =>
      cases c with
      | zero => exact Or.inl rfl
      | succ t => exact ih t s' k

theorem boxAux_congr_slices (p p' : Grid) (bs sx sy : Nat) :
    ∀ fuel, (∀ m, m < fuel →
      sliceFrom (nthRow p' (sx + (bs - (m + 1)))) sy bs =
        sliceFrom (nthRow p (sx + (bs - (m + 1)))) sy bs) →
    boxAux p' bs sx sy fuel = boxAux p bs sx sy fuel := by
  intro fuel
  induction fuel with
  | zero => intro _; rfl
  | succ f ih =>
    intro h
    simp only [boxAux]
    rw [h f (by omega), ih (fun m hm => h m (by omega))]

theorem find_box_start_window (bs x j : Nat) (hbs : 0 < bs) (hj : j < bs) :
    find_box_start bs (find_box_start bs x + j) = find_box_start bs x := by
  unfold find_box_start
  have h1 : (x / bs * bs + j) / bs = x / bs := by
    apply Nat.div_eq_of_lt_le
    · exact Nat.le_add_right _ _
    · rw [Nat.succ_mul]
      omega
  rw [h1]

theorem find_box_start_of_window (bs y c0 : Nat) (hbs : 0 < bs)
    (h1 : find_box_start bs y ≤ c0) (h2 : c0 < find_box_start bs y + bs) :
    find_box_start bs c0 = find_box_start bs y := by
  unfold find_box_start at h1 h2 ⊢
  have h3 : c0 / bs = y / bs := by
    apply Nat.div_eq_of_lt_le
    · exact h1
    · rw [Nat.succ_mul]
      omega
  rw [h3]

theorem boxAux_zeroDiff (p : Grid) (bs sx sy r0 c0 : Nat) :
    ∀ fuel, fuel ≤ bs →
      ZeroDiff (boxAux p bs sx sy fuel)
        (boxAux (setGrid p r0 c0 0) bs sx sy fuel) := by
  intro fuel
  induction fuel with
  | zero => intro _; exact Or.inl rfl
  | succ f ih =>
    intro hle
    simp only [boxAux]
    by_cases hrow : sx + (bs - (f + 1)) = r0
    · have htail : boxAux (setGrid p r0 c0 0) bs sx sy f = boxAux p bs sx sy f := by
        apply boxAux_congr_slices
        intro m hm
        have hne : sx + (bs - (m + 1)) ≠ r0 := by omega
        have hh : nthRow (setGrid p r0 c0 0) (sx + (bs - (m + 1))) =
            nthRow p (sx + (bs - (m + 1))) :=
          nthRow_set_ne p r0 ((nthRow p r0).set c0 0) _ hne
        rw [hh]
      rw [htail]
      apply zeroDiff_append_right
      rw [hrow]
      rcases nthRow_set_self_or p r0 ((nthRow p r0).set c0 0) with he | he
      · have he' : nthRow (setGrid p r0 c0 0) r0 = (nthRow p r0).set c0 0 := he
        rw [he']
        exact sliceFrom_set_zeroDiff (nthRow p r0) c0 sy bs
      · have he' : nthRow (setGrid p r0 c0 0) r0 = nthRow p r0 := he
        rw [he']
        exact Or.inl rfl
    · have hh : nthRow (setGrid p r0 c0 0) (sx + (bs - (f + 1))) =
          nthRow p (sx + (bs - (f + 1))) :=
        nthRow_set_ne p r0 ((nthRow p r0).set c0 0) _ hrow
      rw [hh]
      apply zeroDiff_append_left
      exact ih (by omega)

theorem is_valid_eq_validAt (c : Cell) (p : Grid) (bs : Nat) :
    c.is_valid p bs = validAt p bs c.row c.column := rfl

theorem get_row_setGrid_ne (p : Grid) (r0 c0 v r : Nat) (h : r ≠ r0) :
    get_row (setGrid p r0 c0 v) r = get_row p r :=
  nthRow_set_ne p r0 ((nthRow p r0).set c0 v) r h

theorem get_row_setGrid_self_or (p : Grid) (r0 c0 v : Nat) :
    get_row (setGrid p r0 c0 v) r0 = (get_row p r0).set c0 v ∨
      get_row (setGrid p r0 c0 v) r0 = get_row p r0 :=
  nthRow_set_self_or p r0 ((nthRow p r0).set c0 v)

theorem get_column_setGrid_ne : ∀ (p : Grid) (r0 c0 v c : Nat), c ≠ c0 →
    get_column (setGrid p r0 c0 v) c = get_column p c := by
  intro p
  induction p with
  | nil => intro r0 c0 v c _; rfl
  | cons row rest ih =>
    intro r0 c0 v c h
    cases r0 with
    | zero =>
      show nthD (row.set c0 v) c :: get_column rest c =
        nthD row c :: get_column rest c
      rw [nthD_set_ne row c0 v c h]
    | succ s =>
      show nthD row c :: get_column (setGrid rest s c0 v) c =
        nthD row c :: get_column rest c
      rw [ih s c0 v c h]

theorem get_column_setGrid_self_or : ∀ (p : Grid) (r0 c0 v : Nat),
    get_column (setGrid p r0 c0 v) c0 = (get_column p c0).set r0 v ∨
      get_column (setGrid p r0 c0 v) c0 = get_column p c0 := by
  intro p
  induction p with
  | nil => intro r0 c0 v; right; rfl
  | cons row rest ih =>
    intro r0 c0 v
    cases r0 with
    | zero =>
      rcases nthD_set_self_or row c0 v with h | h
      · left
        show nthD (row.set c0 v) c0 :: get_column rest c0 =
          v :: get_column rest c0
        rw [h]
      · right
        show nthD (row.set c0 v) c0 :: get_column rest c0 =
          nthD row c0 :: get_column rest c0
        rw [h]
    | succ s =>
      rcases ih s c0 v with h | h
      · left
        show nthD row c0 :: get_column (setGrid rest s c0 v) c0 =
          nthD row c0 :: (get_column rest c0).set s v
        rw [h]
      · right
        show nthD row c0 :: get_column (setGrid rest s c0 v) c0 =
          nthD row c0 :: get_column rest c0
        rw [h]

theorem get_box_setGrid_zeroDiff (p : Grid) (bs r0 c0 r c : Nat) :
    ZeroDiff (get_box p bs r c) (get_box (setGrid p r0 c0 0) bs r c) := by
  unfold get_box
  exact boxAux_zeroDiff p bs _ _ r0 c0 bs (le_refl bs)

/-- Writing a 0 anywhere in the grid never destroys validity: removing a
value from a unit cannot create a duplicate. -/
theorem validAt_setGrid_zero (p : Grid) (bs r0 c0 r c : Nat)
    (h : validAt p bs r c = true) :
    validAt (setGrid p r0 c0 0) bs r c = true := by
  simp only [validAt, Bool.and_eq_true] at h ⊢
  obtain ⟨h1, h2, h3⟩ := h
  refine ⟨?_, ?_, ?_⟩
  · by_cases hr : r = r0
    · subst hr
      rcases get_row_setGrid_self_or p r c0 0 with he | he
      · rw [he]; exact check_area_aux_set_zero _ c0 0 h1
      · rw [he]; exact h1
    · rw [get_row_setGrid_ne p r0 c0 0 r hr]; exact h1
  · by_cases hc : c = c0
    · subst hc
      rcases get_column_setGrid_self_or p r0 c 0 with he | he
      · rw [he]; exact check_area_aux_set_zero _ r0 0 h2
      · rw [he]; exact h2
    · rw [get_column_setGrid_ne p r0 c0 0 c hc]; exact h2
  · exact check_area_zeroDiff (get_box_setGrid_zeroDiff p bs r0 c0 r c) h3

/-- The transfer property behind cursor advancement: a write at (r0, c0)
that leaves (r0, c0) itself valid cannot destroy the validity of any other
coordinate, because any new duplicate would involve the written entry and
hence lie in a unit of (r0, c0) as well. -/
theorem validAt_transfer (p : Grid) (bs r0 c0 v rA cA : Nat)
    (hA : validAt p bs rA cA = true)
    (hB : validAt (setGrid p r0 c0 v) bs r0 c0 = true) :
    validAt (setGrid p r0 c0 v) bs rA cA = true := by
  simp only [validAt, Bool.and_eq_true] at hA hB ⊢
  obtain ⟨hA1, hA2, hA3⟩ := hA
  obtain ⟨hB1, hB2, hB3⟩ := hB
  refine ⟨?_, ?_, ?_⟩
  · by_cases hr : rA = r0
    · rw [hr]; exact hB1
    · rw [get_row_setGrid_ne p r0 c0 v rA hr]; exact hA1
  · by_cases hc : cA = c0
    · rw [hc]; exact hB2
    · rw [get_column_setGrid_ne p r0 c0 v cA hc]; exact hA2
  · by_cases hbox : find_box_start bs rA = find_box_start bs r0 ∧
        find_box_start bs cA = find_box_start bs c0
    · obtain ⟨hbr, hbc⟩ := hbox
      have hsame : get_box (setGrid p r0 c0 v) bs rA cA =
          get_box (setGrid p r0 c0 v) bs r0 c0 := by
        unfold get_box get_box_coordinates
        rw [hbr, hbc]
      rw [hsame]; exact hB3
    · have hbs : 0 < bs := by
        rcases Nat.eq_zero_or_pos bs with rfl | hpos
        · exfalso
          apply hbox
          constructor <;> simp [find_box_start]
        · exact hpos
      have hframe : get_box (setGrid p r0 c0 v) bs rA cA = get_box p bs rA cA := by
        unfold get_box get_box_coordinates
        dsimp only
        apply boxAux_congr_slices
        intro m hm
        by_cases hrow : find_box_start bs rA = find_box_start bs r0
        · have hcol : find_box_start bs cA ≠ find_box_start bs c0 :=
            fun hcc => hbox ⟨hrow, hcc⟩
          by_cases hir : find_box_start bs rA + (bs - (m + 1)) = r0
          · rw [hir]
            rcases nthRow_set_self_or p r0 ((nthRow p r0).set c0 v) with he | he
            · have he' : nthRow (setGrid p r0 c0 v) r0 = (nthRow p r0).set c0 v := he
              rw [he']
              apply sliceFrom_set_outside
              intro hcon
              obtain ⟨hle2, hlt2⟩ := hcon
              exact hcol (find_box_start_of_window bs cA c0 hbs hle2 hlt2).symm
            · have he' : nthRow (setGrid p r0 c0 v) r0 = nthRow p r0 := he
              rw [he']
          · have hh : nthRow (setGrid p r0 c0 v) (find_box_start bs rA + (bs - (m + 1))) =
                nthRow p (find_box_start bs rA + (bs - (m + 1))) :=
              nthRow_set_ne p r0 ((nthRow p r0).set c0 v) _ hir
            rw [hh]
        · have hir : find_box_start bs rA + (bs - (m + 1)) ≠ r0 := by
            intro hcontra
            apply hrow
            have hw := find_box_start_window bs rA (bs - (m + 1)) hbs (by omega)
            rw [← hcontra]
            exact hw.symm
          have hh : nthRow (setGrid p r0 c0 v) (find_box_start bs rA + (bs - (m + 1))) =
              nthRow p (find_box_start bs rA + (bs - (m + 1))) :=
            nthRow_set_ne p r0 ((nthRow p r0).set c0 v) _ hir
          rw [hh]
      rw [hframe]; exact hA3

/-! Shape of the loop body's writes: set_number and increment_value only
ever write at the current cell's own coordinate, and never change its
row, column, solved flag or possibility list. -/

theorem setGrid_setGrid : ∀ (p : Grid) (r c v w : Nat),
    setGrid (setGrid p r c v) r c w = setGrid p r c w := by
  intro p
  induction p with
  | nil => intro r c v w; rfl
  | cons row rest ih =>
    intro r c v w
    cases r with
    | zero =>
      show ((row.set c v).set c w) :: rest = (row.set c w) :: rest
      rw [List.set_set]
    | succ s =>
      show row :: setGrid (setGrid rest s c v) s c w = row :: setGrid rest s c w
      rw [ih s c v w]

theorem set_number_shape (c : Cell) (p : Grid) (c2 : Cell) (p2 : Grid)
    (h : c.set_number p = .ok (c2, p2)) :
    c2.row = c.row ∧ c2.column = c.column ∧ c2.solved = c.solved ∧
      c2.possibilities = c.possibilities ∧
      c2.current_index = c.current_index ∧
      (p2 = p ∨ ∃ v, p2 = setGrid p c.row c.column v) ∧
      (c.solved = false → c.current_index < c.possibilities.length) ∧
      (c.solved = true → p2 = p) := by
  unfold Cell.set_number at h
  cases hs : c.solved with
  | true =>
    rw [hs] at h
    have hp := Res.ok.inj h
    have h1 := congrArg Prod.fst hp
    have h2 := congrArg Prod.snd hp
    dsimp only at h1 h2
    subst h1
    subst h2
    exact ⟨rfl, rfl, hs, rfl, rfl, Or.inl rfl,
      fun hcon => Bool.noConfusion hcon, fun _ => rfl⟩
  | false =>
    rw [hs] at h
    cases hv : c.possibilities.get? c.current_index with
    | none => rw [hv] at h; exact Res.noConfusion h
    | some v =>
      rw [hv] at h
      have hp := Res.ok.inj h
      have h1 := congrArg Prod.fst hp
      have h2 := congrArg Prod.snd hp
      dsimp only at h1 h2
      subst h1
      subst h2
      refine ⟨rfl, rfl, rfl, rfl, rfl, Or.inr ⟨v, rfl⟩, ?_, ?_⟩
      · intro _
        obtain ⟨hlt, -⟩ := List.get?_eq_some.mp hv
        exact hlt
      · intro hcon
        exact Bool.noConfusion hcon

theorem incAux_shape (bs : Nat) :
    ∀ (fuel : Nat) (c : Cell) (p : Grid) (c2 : Cell) (p2 : Grid),
      incAux bs fuel c p = .ok (c2, p2) →
      c2.row = c.row ∧ c2.column = c.column ∧ c2.solved = c.solved ∧
        c2.possibilities = c.possibilities ∧
        (p2 = p ∨ ∃ v, p2 = setGrid p c.row c.column v) ∧
        (c.solved = true → p2 = p) := by
  intro fuel
  induction fuel with
  | zero =>
    intro c p c2 p2 h
    rw [incAux_zero] at h
    have hp := Res.ok.inj h
    have h1 := congrArg Prod.fst hp
    have h2 := congrArg Prod.snd hp
    dsimp only at h1 h2
    subst h1
    subst h2
    exact ⟨rfl, rfl, rfl, rfl, Or.inl rfl, fun _ => rfl⟩
  | succ f ih =>
    intro c p c2 p2 h
    cases hvv : c.is_valid p bs with
    | true =>
      rw [incAux_valid bs f c p hvv] at h
      have hp := Res.ok.inj h
      have h1 := congrArg Prod.fst hp
      have h2 := congrArg Prod.snd hp
      dsimp only at h1 h2
      subst h1
      subst h2
      exact ⟨rfl, rfl, rfl, rfl, Or.inl rfl, fun _ => rfl⟩
    | false =>
      cases hb : Nat.blt (c.current_index + 1) c.possibilities.length with
      | false =>
        rw [incAux_invalid_last bs f c p hvv hb] at h
        have hp := Res.ok.inj h
        have h1 := congrArg Prod.fst hp
        have h2 := congrArg Prod.snd hp
        dsimp only at h1 h2
        subst h1
        subst h2
        exact ⟨rfl, rfl, rfl, rfl, Or.inl rfl, fun _ => rfl⟩
      | true =>
        rw [incAux_invalid_step bs f c p hvv hb] at h
        obtain ⟨cp, hsn, h2⟩ := Res.bind_eq_ok h
        cases cp with
        | mk cc pp =>
          obtain ⟨hr1, hc1, hsv1, hps1, -, hgr1, -, hsolved1⟩ :=
            set_number_shape _ p cc pp hsn
          obtain ⟨hr2, hc2, hsv2, hps2, hgr2, hsolved2⟩ := ih cc pp c2 p2 h2
          refine ⟨by rw [hr2, hr1], by rw [hc2, hc1], by rw [hsv2, hsv1],
            by rw [hps2, hps1], ?_, ?_⟩
          · rcases hgr1 with rfl | ⟨v, rfl⟩
            · rcases hgr2 with rfl | ⟨w, hw⟩
              · exact Or.inl rfl
              · exact Or.inr ⟨w, by rw [hw, hr1, hc1]⟩
            · rcases hgr2 with rfl | ⟨w, hw⟩
              · exact Or.inr ⟨v, rfl⟩
              · refine Or.inr ⟨w, ?_⟩
                rw [hw, hr1, hc1]
                exact setGrid_setGrid p c.row c.column v w
          · intro hcs
            have hpp : pp = p := hsolved1 hcs
            have hccs : cc.solved = true := by rw [hsv1]; exact hcs
            rw [hsolved2 hccs, hpp]

theorem cellOps_shape (bs : Nat) (c : Cell) (p : Grid) (c2 : Cell) (p2 : Grid)
    (h : cellOps bs c p = .ok (c2, p2)) :
    c2.row = c.row ∧ c2.column = c.column ∧ c2.solved = c.solved ∧
      c2.possibilities = c.possibilities ∧
      (p2 = p ∨ ∃ v, p2 = setGrid p c.row c.column v) ∧
      (c.solved = true → p2 = p) ∧
      (c.solved = false → c.current_index < c.possibilities.length) := by
  unfold cellOps at h
  obtain ⟨cp, hsn, h2⟩ := Res.bind_eq_ok h
  cases cp with
  | mk cc pp =>
    obtain ⟨hr1, hc1, hsv1, hps1, hid1, hgr1, hlen1, hsolved1⟩ :=
      set_number_shape c p cc pp hsn
    have h2' : incAux bs (cc.possibilities.length - (cc.current_index + 1)) cc pp =
        .ok (c2, p2) := h2
    obtain ⟨hr2, hc2, hsv2, hps2, hgr2, hsolved2⟩ := incAux_shape bs _ cc pp c2 p2 h2'
    refine ⟨by rw [hr2, hr1], by rw [hc2, hc1], by rw [hsv2, hsv1],
      by rw [hps2, hps1], ?_, ?_, hlen1⟩
    · rcases hgr1 with rfl | ⟨v, rfl⟩
      · rcases hgr2 with rfl | ⟨w, hw⟩
        · exact Or.inl rfl
        · exact Or.inr ⟨w, by rw [hw, hr1, hc1]⟩
      · rcases hgr2 with rfl | ⟨w, hw⟩
        · exact Or.inr ⟨v, rfl⟩
        · refine Or.inr ⟨w, ?_⟩
          rw [hw, hr1, hc1]
          exact setGrid_setGrid p c.row c.column v w
    · intro hcs
      have hpp : pp = p := hsolved1 hcs
      have hccs : cc.solved = true := by rw [hsv1]; exact hcs
      rw [hsolved2 hccs, hpp]

theorem applyAt_shape (bs : Nat) :
    ∀ (cells : List Cell) (k : Nat) (p : Grid) (cells2 : List Cell)
      (c2 : Cell) (p2 : Grid),
      applyAt bs cells k p = .ok (cells2, c2, p2) →
      ∃ c, cells.get? k = some c ∧ cellOps bs c p = .ok (c2, p2) ∧
        cells2 = cells.set k c2 := by
  intro cells
  induction cells with
  | nil =>
    intro k p cells2 c2 p2 h
    simp only [applyAt] at h
    exact Res.noConfusion h
  | cons c0 cs ih =>
    intro k p cells2 c2 p2 h
    cases k with
    | zero =>
      cases hco : cellOps bs c0 p with
      | fault => simp only [applyAt, hco] at h; exact Res.noConfusion h
      | noFuel => simp only [applyAt, hco] at h; exact Res.noConfusion h
      | ok cp =>
        cases cp with
        | mk cc pp =>
          simp only [applyAt, hco] at h
          have hp := Res.ok.inj h
          have e1 := congrArg Prod.fst hp
          have e2 := congrArg (fun x => x.2.1) hp
          have e3 := congrArg (fun x => x.2.2) hp
          dsimp only at e1 e2 e3
          subst e1
          subst e2
          subst e3
          exact ⟨c0, rfl, hco, rfl⟩
    | succ k =>
      cases happ : applyAt bs cs k p with
      | fault => simp only [applyAt, happ] at h; exact Res.noConfusion h
      | noFuel => simp only [applyAt, happ] at h; exact Res.noConfusion h
      | ok t =>
        obtain ⟨cs2, cc, pp⟩ := t
        simp only [applyAt, happ] at h
        have hp := Res.ok.inj h
        have e1 := congrArg Prod.fst hp
        have e2 := congrArg (fun x => x.2.1) hp
        have e3 := congrArg (fun x => x.2.2) hp
        dsimp only at e1 e2 e3
        subst e1
        subst e2
        subst e3
        obtain ⟨c, hg, hco, hset⟩ := ih k p cs2 cc pp happ
        exact ⟨c, hg, hco, by rw [hset]; rfl⟩

/-- move_forward only walks the cursor forward, and only over solved
cells. -/
theorem mfAux_pass (cells : List Cell) (n : Nat) :
    ∀ (fuel : Nat) (coord coord' : Int),
      mfAux cells n fuel coord = .ok coord' →
      coord ≤ coord' ∧ ∀ (k : Nat) (c : Cell), coord ≤ (k : Int) →
        (k : Int) < coord' → cells.get? k = some c → c.solved = true := by
  intro fuel
  induction fuel with
  | zero =>
    intro coord coord' h
    simp only [mfAux] at h
    have := Res.ok.inj h
    subst this
    exact ⟨le_refl _, fun k c h1 h2 _ => absurd h2 (by omega)⟩
  | succ f ih =>
    intro coord coord' h
    simp only [mfAux] at h
    cases hg : coordLtSub1 coord n with
    | false =>
      simp only [hg] at h
      have := Res.ok.inj h
      subst this
      exact ⟨le_refl _, fun k c h1 h2 _ => absurd h2 (by omega)⟩
    | true =>
      simp only [hg] at h
      cases hpg : (pyIdx n coord).bind cells.get? with
      | none => simp only [hpg] at h; exact Res.noConfusion h
      | some c0 =>
        simp only [hpg] at h
        cases hs0 : c0.solved with
        | false =>
          simp only [hs0] at h
          have := Res.ok.inj h
          subst this
          exact ⟨le_refl _, fun k c h1 h2 _ => absurd h2 (by omega)⟩
        | true =>
          simp only [hs0] at h
          obtain ⟨hle, hpass⟩ := ih (coord + 1) coord' h
          refine ⟨by omega, ?_⟩
          intro k c h1 h2 hget
          by_cases hk : (k : Int) = coord
          · -- the skipped cell itself: identify c with c0
            have hco : coord = (k : Int) := hk.symm
            subst hco
            cases hpy : pyIdx n (k : Int) with
            | none =>
              simp only [hpy, Option.none_bind] at hpg
              exact Option.noConfusion hpg
            | some j =>
              have hjk : j = k := by
                simp only [pyIdx] at hpy
                cases hblt : Nat.blt k n
                · rw [hblt] at hpy; simp at hpy
                · rw [hblt] at hpy; simp at hpy; exact hpy.symm
              subst hjk
              simp only [hpy, Option.some_bind] at hpg
              rw [hget] at hpg
              have hcc := Option.some.inj hpg
              rw [hcc]
              exact hs0
          · exact hpass k c (by omega) h2 hget

theorem pyIdx_some_lt (n : Nat) (i : Int) (k : Nat)
    (h : pyIdx n i = some k) : k < n := by
  cases i with
  | ofNat m =>
    simp only [pyIdx] at h
    cases hblt : Nat.blt m n
    · rw [hblt] at h; exact Option.noConfusion h
    · rw [hblt] at h
      have hk := Option.some.inj h
      subst hk
      exact Nat.blt_eq.mp hblt
  | negSucc m =>
    simp only [pyIdx] at h
    cases hble : Nat.ble (m + 1) n
    · rw [hble] at h; exact Option.noConfusion h
    · rw [hble] at h
      have hk := Option.some.inj h
      subst hk
      have := Nat.le_of_ble_eq_true hble
      omega

/-- Positions strictly before the cursor lie strictly below the resolved
cursor position: for a non-negative cursor they are smaller indices, and a
negative cursor has no positions before it at all. -/
theorem pyIdx_prefix_lt (n : Nat) (coord : Int) (k : Nat)
    (h : pyIdx n coord = some k) :
    ∀ (k' : Nat), (k' : Int) < coord → k' < k := by
  intro k' hlt
  cases coord with
  | ofNat m =>
    simp only [pyIdx] at h
    cases hblt : Nat.blt m n
    · rw [hblt] at h; exact Option.noConfusion h
    · rw [hblt] at h
      have hk := Option.some.inj h
      subst hk
      have hlt' : (k' : Int) < (m : Int) := hlt
      omega
  | negSucc m =>
    have h2 := Int.negSucc_lt_zero m
    omega

theorem btAux_le (cells : List Cell) (n : Nat) :
    ∀ (fuel : Nat) (coord coord' : Int),
      btAux cells n fuel coord = .ok coord' → coord' ≤ coord := by
  intro fuel
  induction fuel with
  | zero =>
    intro coord coord' h
    rw [btAux_zero] at h
    exact Res.noConfusion h
  | succ f ih =>
    intro coord coord' h
    cases hpg : (pyIdx n coord).bind cells.get? with
    | none =>
      rw [btAux_succ_none cells n f coord hpg] at h
      exact Res.noConfusion h
    | some c =>
      cases hs : c.solved with
      | true =>
        rw [btAux_succ_solved cells n f coord c hpg hs] at h
        have := ih (coord - 1) coord' h
        omega
      | false =>
        rw [btAux_succ_open cells n f coord c hpg hs] at h
        have := Res.ok.inj h
        omega

theorem backtrack_coord_le (g g2 : Game) (h : g.backtrack = .ok g2) :
    g2.backtrack_coord ≤ g.backtrack_coord - 1 := by
  unfold Game.backtrack at h
  obtain ⟨coord2, hb, h2⟩ := Res.bind_eq_ok h
  have hle := btAux_le _ _ _ _ _ hb
  have hg2 := Res.ok.inj h2
  subst hg2
  exact hle

theorem reset_cell_eq (g : Game) (k : Nat) (c : Cell)
    (hget : g.solve_puzzle.get? k = some c) :
    g.reset_cell k =
      { g with puzzle := setGrid g.puzzle c.row c.column 0,
               solve_puzzle := g.solve_puzzle.set k
                 { c with current_index := 0, number := 0 } } := by
  unfold Game.reset_cell
  rw [hget]

theorem decAux_succ (bs : Nat) (fuel : Nat) (g : Game) (k : Nat) :
    decAux bs (fuel + 1) g k =
      match g.solve_puzzle.get? k with
      | none => .fault
      | some c =>
        match c.current_index + 1 == c.possibilities.length with
        | true =>
          Res.bind (Game.backtrack (g.reset_cell k))
            (fun g2 =>
              match pyIdx g2.solve_puzzle.length g2.backtrack_coord with
              | none => .fault
              | some k2 => decAux bs fuel g2 k2)
        | false =>
          .ok { g with solve_puzzle := g.solve_puzzle.set k { c with current_index := c.current_index + 1 } } := by
  simp only [decAux]

/-- decrement_cell preserves the prefix invariant: `k` is the resolved
cursor position, so the cells it resets (always with a 0 grid write) are
never strictly before the cursor, and backtrack only moves the cursor
down. -/
theorem decAux_validPrefix (bs : Nat) :
    ∀ (fuel : Nat) (g : Game) (k : Nat) (g2 : Game),
      decAux bs fuel g k = .ok g2 →
      bs = g.box_size →
      pyIdx g.solve_puzzle.length g.backtrack_coord = some k →
      ValidPrefix g → ValidPrefix g2 := by
  intro fuel
  induction fuel with
  | zero =>
    intro g k g2 h _ _ _
    simp only [decAux] at h
    exact Res.noConfusion h
  | succ f ih =>
    intro g k g2 h hbs hpyk hV
    simp only [decAux] at h
    cases hget : g.solve_puzzle.get? k with
    | none => simp only [hget] at h; exact Res.noConfusion h
    | some c =>
      simp only [hget] at h
      cases hbeq : c.current_index + 1 == c.possibilities.length with
      | false =>
        simp only [hbeq] at h
        have hg2 := Res.ok.inj h
        subst hg2
        intro k' c' hlt hget'
        have hk'k : k' < k := pyIdx_prefix_lt _ _ _ hpyk k' hlt
        have hget'' : g.solve_puzzle.get? k' = some c' := by
          rw [← hget']
          exact (List.get?_set_ne _ _ (by omega)).symm
        exact hV k' c' hlt hget''
      | true =>
        simp only [hbeq] at h
        obtain ⟨g3, hb3, h3⟩ := Res.bind_eq_ok h
        have hre := reset_cell_eq g k c hget
        have hVr : ValidPrefix (g.reset_cell k) := by
          rw [hre]
          intro k' c' hlt hget'
          have hk'k : k' < k := pyIdx_prefix_lt _ _ _ hpyk k' hlt
          have hget'' : g.solve_puzzle.get? k' = some c' := by
            rw [← hget']
            exact (List.get?_set_ne _ _ (by omega)).symm
          rcases hV k' c' hlt hget'' with hs' | hv'
          · exact Or.inl hs'
          · right
            rw [is_valid_eq_validAt] at hv' ⊢
            exact validAt_setGrid_zero g.puzzle g.box_size c.row c.column _ _ hv'
        obtain ⟨hp3, hsp3, hbx3⟩ := backtrack_fields _ _ hb3
        have hco3 := backtrack_coord_le _ _ hb3
        have hV3 : ValidPrefix g3 := by
          intro k' c' hlt hget'
          have hlt' : (k' : Int) < (g.reset_cell k).backtrack_coord := by omega
          rcases hVr k' c' hlt' (by rw [← hsp3]; exact hget') with hs' | hv'
          · exact Or.inl hs'
          · right
            rw [is_valid_eq_validAt] at hv' ⊢
            rw [hp3, hbx3]
            exact hv'
        cases hpy2 : pyIdx g3.solve_puzzle.length g3.backtrack_coord with
        | none => simp only [hpy2] at h3; exact Res.noConfusion h3
        | some k2 =>
          simp only [hpy2] at h3
          exact ih g3 k2 g2 h3 (by rw [hbx3, hre]; exact hbs) hpy2 hV3

theorem move_forward_validPrefix (g g1 : Game) (h : g.move_forward = .ok g1)
    (hV : ValidPrefix g) : ValidPrefix g1 := by
  simp only [Game.move_forward] at h
  revert h
  cases hm : mfAux g.solve_puzzle g.solve_puzzle.length
      (((g.solve_puzzle.length : Int)) - 1 - g.backtrack_coord).toNat
      g.backtrack_coord with
  | fault =>
    intro h
    exact Res.noConfusion (show Res.fault = Res.ok g1 from h)
  | noFuel =>
    intro h
    exact Res.noConfusion (show Res.noFuel = Res.ok g1 from h)
  | ok coord =>
    intro h
    have hg1 := Res.ok.inj
      (show Res.ok { g with backtrack_coord := coord } = Res.ok g1 from h)
    subst hg1
    obtain ⟨hle, hpass⟩ := mfAux_pass g.solve_puzzle g.solve_puzzle.length _ _ _ hm
    intro k' c' hlt hget'
    by_cases hk : (k' : Int) < g.backtrack_coord
    · exact hV k' c' hk hget'
    · exact Or.inl (hpass k' c' (by omega) hlt hget')

/-- One main-loop iteration preserves the prefix invariant: move_forward
only skips solved cells; an advance certifies the current cell valid in the
new grid, and by the transfer property its write cannot have invalidated an
earlier cell; a retreat only writes zeros, moves the cursor down, or (on a
solved current cell) leaves the grid unchanged. -/
theorem solve_validPrefix (g g2 : Game) (h : g.solve = .ok g2)
    (hV : ValidPrefix g) : ValidPrefix g2 := by
  unfold Game.solve at h
  obtain ⟨g1, hmf, h1⟩ := Res.bind_eq_ok h
  have hV1 : ValidPrefix g1 := move_forward_validPrefix g g1 hmf hV
  cases hpy : pyIdx g1.solve_puzzle.length g1.backtrack_coord with
  | none => simp only [hpy] at h1; exact Res.noConfusion h1
  | some k =>
    simp only [hpy] at h1
    cases happ : applyAt g1.box_size g1.solve_puzzle k g1.puzzle with
    | fault => simp only [happ] at h1; exact Res.noConfusion h1
    | noFuel => simp only [happ] at h1; exact Res.noConfusion h1
    | ok t =>
      obtain ⟨cells2, c2, p2⟩ := t
      simp only [happ] at h1
      obtain ⟨B, hgetB, hco, hcells2⟩ :=
        applyAt_shape g1.box_size g1.solve_puzzle k g1.puzzle cells2 c2 p2 happ
      obtain ⟨hr2, hc2, hsv2, hps2, hgr2, hsolg2, hlen2⟩ :=
        cellOps_shape g1.box_size B g1.puzzle c2 p2 hco
      have hklen : k < g1.solve_puzzle.length := pyIdx_some_lt _ _ _ hpy
      cases hv : c2.is_valid p2 g1.box_size with
      | true =>
        simp only [hv] at h1
        have hg2 := Res.ok.inj h1
        subst hg2
        subst hcells2
        intro k' c' hlt hget'
        have hlt2 : (k' : Int) < g1.backtrack_coord + 1 := hlt
        by_cases hk' : k' = k
        · subst hk'
          have hset : (g1.solve_puzzle.set k' c2).get? k' = some c2 :=
            List.get?_set_eq_of_lt c2 hklen
          rw [hset] at hget'
          have hc' := Option.some.inj hget'
          subst hc'
          right
          exact hv
        · have hget'' : g1.solve_puzzle.get? k' = some c' := by
            rw [← hget']
            exact (List.get?_set_ne _ _ (fun hh => hk' hh.symm)).symm
          have hklt : (k' : Int) < g1.backtrack_coord := by
            cases hcoord : g1.backtrack_coord with
            | ofNat m =>
              rw [hcoord] at hpy
              simp only [pyIdx] at hpy
              cases hblt : Nat.blt m g1.solve_puzzle.length
              · rw [hblt] at hpy; exact Option.noConfusion hpy
              · rw [hblt] at hpy
                have hkm := Option.some.inj hpy
                rw [hcoord] at hlt2
                have hlt' : (k' : Int) < (m : Int) + 1 := hlt2
                have hne : k' ≠ m := fun hh => hk' (hh.trans hkm)
                have hfin : (k' : Int) < (m : Int) := by omega
                exact hfin
            | negSucc m =>
              rw [hcoord] at hlt2
              have h2 := Int.negSucc_lt_zero m
              omega
          rcases hV1 k' c' hklt hget'' with hs' | hv'
          · exact Or.inl hs'
          · right
            rw [is_valid_eq_validAt] at hv' ⊢
            show validAt p2 g1.box_size c'.row c'.column = true
            rcases hgr2 with rfl | ⟨v, rfl⟩
            · exact hv'
            · apply validAt_transfer g1.puzzle g1.box_size B.row B.column v
                c'.row c'.column hv'
              rw [is_valid_eq_validAt, hr2, hc2] at hv
              exact hv
      | false =>
        simp only [hv] at h1
        unfold Game.decrement_cell at h1
        have hgetc2 : cells2.get? k = some c2 := by
          rw [hcells2]
          exact List.get?_set_eq_of_lt c2 hklen
        have h1' : decAux g1.box_size
            (((g1.backtrack_coord + (cells2.length : Int) + 2).toNat + 1) + 1)
            { g1 with puzzle := p2, solve_puzzle := cells2 } k = .ok g2 := h1
        rw [decAux_succ] at h1'
        simp only [hgetc2] at h1'
        have hpyM : pyIdx cells2.length g1.backtrack_coord = some k := by
          rw [hcells2, List.length_set]
          exact hpy
        cases hbeq : c2.current_index + 1 == c2.possibilities.length with
        | false =>
          simp only [hbeq] at h1'
          have hg2 := Res.ok.inj h1'
          subst hg2
          have hsolv : c2.solved = true := by
            cases hsolv2 : c2.solved
            · exfalso
              have hBuns : B.solved = false := by rw [← hsv2]; exact hsolv2
              have hco' := hco
              unfold cellOps at hco'
              obtain ⟨cp, hsn, hinc⟩ := Res.bind_eq_ok hco'
              cases cp with
              | mk B1 p1' =>
                obtain ⟨hrB1, hcB1, hsvB1, hpsB1, hidB1, hgrB1, hlenB1, -⟩ :=
                  set_number_shape B g1.puzzle B1 p1' hsn
                have hB1uns : B1.solved = false := by rw [hsvB1]; exact hBuns
                have hB1lt : B1.current_index < B1.possibilities.length := by
                  rw [hidB1, hpsB1]
                  exact hlenB1 hBuns
                obtain ⟨c2', p2', heq, hposs', hsolved', hrow', hcol',
                    hidle', hidlt', hlast'⟩ :=
                  incAux_spec g1.box_size _ B1 p1' hB1uns hB1lt rfl
                have hinc' : incAux g1.box_size
                    (B1.possibilities.length - (B1.current_index + 1)) B1 p1' =
                    .ok (c2, p2) := hinc
                rw [heq] at hinc'
                have hpair := Res.ok.inj hinc'
                have e1 := congrArg Prod.fst hpair
                have e2 := congrArg Prod.snd hpair
                dsimp only at e1 e2
                subst e1
                subst e2
                rcases hlast' with hval | hlast
                · rw [hval] at hv; exact Bool.noConfusion hv
                · have hlen : c2'.current_index + 1 = c2'.possibilities.length := by
                    rw [hposs']; exact hlast
                  have hbeqt : (c2'.current_index + 1 == c2'.possibilities.length) = true := by
                    rw [hlen]
                    exact beq_self_eq_true _
                  rw [hbeqt] at hbeq
                  exact Bool.noConfusion hbeq
            · rfl
          have hp2 : p2 = g1.puzzle := hsolg2 (by rw [← hsv2]; exact hsolv)
          subst hp2
          intro k' c' hlt hget'
          have hk'k : k' < k := pyIdx_prefix_lt _ _ _ hpyM k' hlt
          have hget'' : g1.solve_puzzle.get? k' = some c' := by
            have e1 : (cells2.set k
                { c2 with current_index := c2.current_index + 1 }).get? k' =
                cells2.get? k' := List.get?_set_ne _ _ (by omega)
            have e2 : cells2.get? k' = g1.solve_puzzle.get? k' := by
              rw [hcells2]
              exact List.get?_set_ne _ _ (by omega)
            rw [e1, e2] at hget'
            exact hget'
          rcases hV1 k' c' hlt hget'' with hs' | hv'
          · exact Or.inl hs'
          · right
            exact hv'
        | true =>
          simp only [hbeq] at h1'
          obtain ⟨g3, hb3, h3⟩ := Res.bind_eq_ok h1'
          have hgetM : ({ g1 with puzzle := p2, solve_puzzle := cells2 } :
              Game).solve_puzzle.get? k = some c2 := hgetc2
          have hre := reset_cell_eq _ k c2 hgetM
          have hVR : ValidPrefix
              (({ g1 with puzzle := p2, solve_puzzle := cells2 } : Game).reset_cell k) := by
            rw [hre]
            intro k' c' hlt hget'
            have hk'k : k' < k := pyIdx_prefix_lt _ _ _ hpyM k' hlt
            have hget'' : g1.solve_puzzle.get? k' = some c' := by
              have e1 : (cells2.set k
                  { c2 with current_index := 0, number := 0 }).get? k' =
                  cells2.get? k' := List.get?_set_ne _ _ (by omega)
              have e2 : cells2.get? k' = g1.solve_puzzle.get? k' := by
                rw [hcells2]
                exact List.get?_set_ne _ _ (by omega)
              rw [e1, e2] at hget'
              exact hget'
            rcases hV1 k' c' hlt hget'' with hs' | hv'
            · exact Or.inl hs'
            · right
              rw [is_valid_eq_validAt] at hv' ⊢
              show validAt (setGrid p2 c2.row c2.column 0) g1.box_size
                c'.row c'.column = true
              rw [hr2, hc2]
              rcases hgr2 with rfl | ⟨v, rfl⟩
              · exact validAt_setGrid_zero _ _ _ _ _ _ hv'
              · rw [setGrid_setGrid]
                exact validAt_setGrid_zero _ _ _ _ _ _ hv'
          obtain ⟨hp3, hsp3, hbx3⟩ := backtrack_fields _ _ hb3
          have hco3 := backtrack_coord_le _ _ hb3
          have hV3 : ValidPrefix g3 := by
            intro k' c' hlt hget'
            have hlt' : (k' : Int) <
                (({ g1 with puzzle := p2, solve_puzzle := cells2 } :
                  Game).reset_cell k).backtrack_coord := by omega
            rcases hVR k' c' hlt' (by rw [← hsp3]; exact hget') with hs' | hv'
            · exact Or.inl hs'
            · right
              rw [is_valid_eq_validAt] at hv' ⊢
              rw [hp3, hbx3]
              exact hv'
          cases hpy2 : pyIdx g3.solve_puzzle.length g3.backtrack_coord with
          | none => simp only [hpy2] at h3; exact Res.noConfusion h3
          | some k2 =>
            simp only [hpy2] at h3
            exact decAux_validPrefix g1.box_size _ g3 k2 g2 h3
              (by rw [hbx3, hre]) hpy2 hV3

theorem steps_validPrefix : ∀ (n : Nat) (g g2 : Game), steps n g = .ok g2 →
    ValidPrefix g → ValidPrefix g2 := by
  intro n
  induction n with
  | zero =>
    intro g g2 h hV
    simp only [steps] at h
    have := Res.ok.inj h
    subst this
    exact hV
  | succ m ih =>
    intro g g2 h hV
    simp only [steps] at h
    cases hc : coordLeSub1 g.backtrack_coord g.solve_puzzle.length with
    | false =>
      simp only [hc] at h
      have := Res.ok.inj h
      subst this
      exact hV
    | true =>
      simp only [hc] at h
      cases hs : g.solve with
      | fault => simp only [hs] at h; exact Res.noConfusion h
      | noFuel => simp only [hs] at h; exact Res.noConfusion h
      | ok g1 =>
        simp only [hs] at h
        exact ih g1 g2 h (solve_validPrefix g g1 hs hV)

/-- C6: in every state the main loop can reach from an initialized board,
each cell strictly before the cursor is solved (fixed at construction) or
holds a currently-valid assignment, and one further iteration preserves
this -- in particular the cursor only advances past the current cell in a
state where that cell's assignment is valid. -/
theorem C6_prefix_cells_solved_or_valid (p : Grid) (g0 : Game) (n : Nat)
    (g' : Game)
    (hinit : (mkSolver p).initialize_board = .ok g0)
    (hsteps : steps n g0 = .ok g') :
    ValidPrefix g' ∧ ∀ g2, g'.solve = .ok g2 → ValidPrefix g2 := by
  have hg0 : g0 = Game.mk p (initCells p (intSqrt p.length)) (intSqrt p.length) 0 := by
    rw [initialize_board_eq p] at hinit
    exact (Res.ok.inj hinit).symm
  subst hg0
  have hV0 : ValidPrefix
      (Game.mk p (initCells p (intSqrt p.length)) (intSqrt p.length) 0) := by
    intro k c hlt _
    exfalso
    have hlt' : (k : Int) < 0 := hlt
    omega
  have hV' := steps_validPrefix n _ g' hsteps hV0
  exact ⟨hV', fun g2 hs => solve_validPrefix g' g2 hs hV'⟩

/-- Witness for C6 at the solved grid from the source, at the initial
state (zero loop iterations). -/
theorem C6_prefix_cells_solved_or_valid_witness :
    ValidPrefix (Game.mk solution (initCells solution (intSqrt solution.length))
      (intSqrt solution.length) 0) ∧
    ∀ g2, (Game.mk solution (initCells solution (intSqrt solution.length))
      (intSqrt solution.length) 0).solve = .ok g2 → ValidPrefix g2 :=
  C6_prefix_cells_solved_or_valid solution _ 0 _
    (initialize_board_eq solution) rfl

end Sudoku
